import Mathlib

/-!
# Copy orchestration of `cmd-cp.go`

A shallow embedding of `getTargetWriters` and `doCopyCmd` (and of the error
report of `runCopyCmd`) from `src/cmd-cp.go`, together with the parts of the Go
standard library `io` package they run (`io.MultiWriter`, `io.LimitReader`,
`io.Copy`, `io.CopyN`).

The storage layer is reached only through the `clientManager` interface and the
handles it returns.  It is modelled as a deterministic machine over an
arbitrary state type `σ`: each interface call takes the current state and
returns the next state together with the call's results.  Every call the code
makes is logged in a trace of `Event`s, so that statements such as "closed
exactly once" or "nothing was written" are statements about the trace.

Assumptions of the model, all visible in the definitions below:

* the handles obey the contracts of `io.Reader` and `io.Writer` (fields
  `read_le`, `read_progress`, `write_le` of `clientManager`); in particular a
  reader that keeps returning `0, nil` into a non-empty buffer, with which
  `io.Copy` never returns, is outside the model;
* `getSourceReader` and `getTargetWriter` return either an error or a usable
  handle;
* `iodine.New` belongs to another package and is represented by a constructor
  that keeps the wrapped error and the annotation;
* the progress bar and `startBar` are not in `cmd-cp.go`; the bar's `Write`
  accepts every chunk in full and only counts.
-/

namespace CmdCp

/-! ## Data model -/

/-- The bytes of a stream. -/
abbrev Byte := Nat

/-- An `io.ReadCloser` / `io.WriteCloser` value handed out by the manager. -/
abbrev Handle := Nat

/-- The locator type `parsedURL`; its declaration is not in `cmd-cp.go`.  The
code uses the bucket name, the object name and the textual form `String()`. -/
structure parsedURL where
  bucketName : String
  objectName : String
  text : String
  deriving DecidableEq, Repr

/-- The method `String()` of `parsedURL`. -/
def parsedURL.String (u : parsedURL) : String := u.text

/-- Go `error` values that are not nil.  `EOF` and `ErrShortWrite` are the
sentinels of package `io`; `other` is any other plain error; `iodine e data` is
the value `iodine.New(e, data)` builds around a non-nil `e`. -/
inductive Error where
  | EOF
  | ErrShortWrite
  | other (text : String)
  | iodine (err : Error) (data : List (String × String))
  deriving DecidableEq, Repr

/-- The call `iodine.New(err, data)`: nil stays nil, a non-nil error is wrapped
together with the annotation `data` (`nil` data is the empty list). -/
def iodineNew : Option Error → List (String × String) → Option Error
  | none, _ => none
  | some e, data => some (Error.iodine e data)

/-- Result of `getSourceReader` as the caller sees it: the error, or the
reader with the declared length and the hex MD5. -/
inductive SourceResult where
  | failed (err : Error)
  | opened (reader : Handle) (length : Int) (md5hex : String)
  deriving DecidableEq, Repr

/-- Result of `getTargetWriter` as the caller sees it. -/
inductive TargetResult where
  | failed (err : Error)
  | opened (writer : Handle)
  deriving DecidableEq, Repr

/-- The interface `clientManager` and the handles it returns, as a machine over
the state `σ`.  `Read s r n` is `r.Read(p)` with `len(p) = n` and returns the
bytes stored into `p` and the error; `Write s h p` is `h.Write(p)` and returns
the byte count and the error.  The last three fields are the contracts of
`io.Reader` and `io.Writer`: a read fills at most `len(p)` bytes, a read into a
non-empty buffer that returns no bytes returns an error, and a write reports a
count between 0 and `len(p)`. -/
structure clientManager (σ : Type) where
  getSourceReader : σ → parsedURL → σ × SourceResult
  getTargetWriter : σ → parsedURL → String → Int → σ × TargetResult
  Read : σ → Handle → Nat → σ × List Byte × Option Error
  ReaderClose : σ → Handle → σ × Option Error
  Write : σ → Handle → List Byte → σ × Nat × Option Error
  Close : σ → Handle → σ × Option Error
  read_le : ∀ s r n, (Read s r n).2.1.length ≤ n
  read_progress : ∀ s r n, 0 < n → (Read s r n).2.1 = [] → (Read s r n).2.2 ≠ none
  write_le : ∀ s h p, (Write s h p).2.1 ≤ p.length

/-- One call made by the code, with its arguments and what it returned. -/
inductive Event where
  | getSourceReader (u : parsedURL) (res : SourceResult)
  | getTargetWriter (u : parsedURL) (md5Hex : String) (length : Int) (res : TargetResult)
  | read (r : Handle) (n : Nat) (data : List Byte) (err : Option Error)
  | write (i : Nat) (h : Handle) (p : List Byte) (n : Nat) (err : Option Error)
  | close (h : Handle) (err : Option Error)
  | readerClose (r : Handle) (err : Option Error)
  | barStart (total : Int)
  | barWrite (p : List Byte)
  deriving DecidableEq, Repr

/-- Modelled from the spec: the progress sink `*pb.ProgressBar` built by
`startBar(length)`, neither of which is in `cmd-cp.go`.  It is initialised with
the declared total and counts the bytes it has observed. -/
structure ProgressBar where
  Total : Int
  current : Int
  deriving DecidableEq, Repr

/-- Modelled from the spec: `startBar(length)`. -/
def startBar (length : Int) : ProgressBar := ⟨length, 0⟩

/-- A member of the `io.MultiWriter`: a target handle or the progress bar. -/
inductive Writer where
  | target (h : Handle)
  | bar
  deriving DecidableEq, Repr

/-- What a run has done so far: the state of the storage layer, the trace of
calls, and the progress bar when one has been constructed. -/
structure Env (σ : Type) where
  world : σ
  trace : List Event
  bar : Option ProgressBar

/-- What `doCopyCmd` leaves behind: the returned pair `(msg, err)`, the final
`Env`, and `copied`, the value `io.CopyN` assigned to `err` on line 142 when
the run got that far. -/
structure Outcome (σ : Type) where
  msg : String
  err : Option Error
  env : Env σ
  copied : Option (Option Error)

variable {σ : Type}

/-! ## Package `io` -/

/-- The call `w.Write(p)` on the `i`-th member of the multi-writer.
Modelled from the spec for the bar: its write advances the counter by `len(p)`
and always succeeds. -/
def writerWrite (m : clientManager σ) (i : Nat) (w : Writer) (p : List Byte)
    (env : Env σ) : Env σ × Nat × Option Error :=
  match w with
  | Writer.target h =>
    let res := m.Write env.world h p
    (⟨res.1, env.trace ++ [Event.write i h p res.2.1 res.2.2], env.bar⟩, res.2.1, res.2.2)
  | Writer.bar =>
    (⟨env.world, env.trace ++ [Event.barWrite p],
      env.bar.map (fun b => ⟨b.Total, b.current + p.length⟩)⟩, p.length, none)

/-- The method `(t *multiWriter) Write(p)`: write `p` to every member in order;
stop at the first error, or with `ErrShortWrite` at the first member whose
count is not `len(p)`; otherwise return `(len(p), nil)`.  The second argument
is the index of the first writer of the list. -/
def multiWriterWrite (m : clientManager σ) (p : List Byte) :
    List Writer → Nat → Env σ → Env σ × Nat × Option Error
  | [], _, env => (env, p.length, none)
  | w :: ws, i, env =>
    let res := writerWrite m i w p env
    match res.2.2 with
    | some e => (res.1, res.2.1, some e)
    | none =>
      if res.2.1 ≠ p.length then (res.1, res.2.1, some Error.ErrShortWrite)
      else multiWriterWrite m p ws (i + 1) res.1

/-- The call `src.Read(p)` on the source reader with `len(p) = n`. -/
def readerRead (m : clientManager σ) (r : Handle) (n : Nat) (env : Env σ) :
    Env σ × List Byte × Option Error :=
  let res := m.Read env.world r n
  (⟨res.1, env.trace ++ [Event.read r n res.2.1 res.2.2], env.bar⟩, res.2.1, res.2.2)

/-- The size of the buffer `io.Copy` allocates. -/
def copyBufSize : Nat := 32 * 1024

/-- The loop of `io.Copy(dst, io.LimitReader(src, n))`, where `dst` is the
multi-writer over `ws`.  `N` is the field `N` of the `LimitedReader` and
`written` the byte count so far; the result is the final `Env` and the pair
`(written, err)`.

Each round: the limited reader returns `(0, EOF)` when `N ≤ 0`, and otherwise
reads into the first `min(len(buf), N)` bytes of the buffer and subtracts the
count from `N`; the bytes read, if any, are written to `dst`; a write error or
a short write ends the loop with that error, `EOF` from the reader ends it with
no error, any other read error ends it with that error.

The first argument bounds the number of rounds.  A round that continues has
read at least one byte (`read_progress`), so `N.toNat` rounds can be followed
only by the round with `N ≤ 0`; see `copyLoop_fuel`. -/
def copyLoop (m : clientManager σ) (r : Handle) (ws : List Writer) :
    Nat → Int → Int → Env σ → Env σ × Int × Option Error
  | 0, _, written, env => (env, written, none)
  | fuel + 1, N, written, env =>
    if N ≤ 0 then (env, written, none)
    else
      let rd := readerRead m r (min copyBufSize N.toNat) env
      let nr := rd.2.1.length
      let er := rd.2.2
      if 0 < nr then
        let wr := multiWriterWrite m rd.2.1 ws 0 rd.1
        let nw := wr.2.1
        let written1 := if 0 < nw then written + nw else written
        match wr.2.2 with
        | some ew => (wr.1, written1, some ew)
        | none =>
          if nr ≠ nw then (wr.1, written1, some Error.ErrShortWrite)
          else
            match er with
            | some Error.EOF => (wr.1, written1, none)
            | some e => (wr.1, written1, some e)
            | none => copyLoop m r ws fuel (N - nr) written1 wr.1
      else
        match er with
        | some Error.EOF => (rd.1, written, none)
        | some e => (rd.1, written, some e)
        | none => copyLoop m r ws fuel (N - nr) written rd.1

/-- The function `io.CopyN(dst, src, n)`: run `io.Copy` on the limited reader;
if `written == n` return `(n, nil)`; if `written < n` and there is no error
the error is `EOF`. -/
def ioCopyN (m : clientManager σ) (r : Handle) (ws : List Writer) (n : Int)
    (env : Env σ) : Env σ × Int × Option Error :=
  let res := copyLoop m r ws (n.toNat + 1) n 0 env
  if res.2.1 = n then (res.1, n, none)
  else if res.2.1 < n ∧ res.2.2 = none then (res.1, res.2.1, some Error.EOF)
  else res

/-! ## `cmd-cp.go` -/

/-- The loop `for _, targetWriter := range targetWriters { targetWriter.Close() }`
of `getTargetWriters`; the values returned by `Close` are dropped. -/
def closeAll (m : clientManager σ) : List Handle → Env σ → Env σ
  | [], env => env
  | h :: hs, env =>
    let res := m.Close env.world h
    closeAll m hs ⟨res.1, env.trace ++ [Event.close h res.2], env.bar⟩

/-- The loop of `getTargetWriters`, with `targetWriters` the writers appended
so far. -/
def getTargetWritersLoop (m : clientManager σ) (md5Hex : String) (length : Int) :
    List parsedURL → List Handle → Env σ → Env σ × Except Error (List Handle)
  | [], targetWriters, env => (env, Except.ok targetWriters)
  | targetURLParser :: rest, targetWriters, env =>
    let res := m.getTargetWriter env.world targetURLParser md5Hex length
    let env1 : Env σ :=
      ⟨res.1, env.trace ++ [Event.getTargetWriter targetURLParser md5Hex length res.2], env.bar⟩
    match res.2 with
    | TargetResult.failed err =>
      (closeAll m targetWriters env1,
        Except.error (Error.iodine err [("failedURL", targetURLParser.String)]))
    | TargetResult.opened writer =>
      getTargetWritersLoop m md5Hex length rest (targetWriters ++ [writer]) env1

/-- The function `getTargetWriters(manager, targetURLParsers, md5Hex, length)`. -/
def getTargetWriters (m : clientManager σ) (targetURLParsers : List parsedURL)
    (md5Hex : String) (length : Int) (env : Env σ) :
    Env σ × Except Error (List Handle) :=
  getTargetWritersLoop m md5Hex length targetURLParsers [] env

/-- Lines 125 to 136 of `doCopyCmd`: the writers are the target handles in
order, followed by the progress bar unless `globalQuietFlag` is set. -/
def copyWriters (globalQuietFlag : Bool) (writeClosers : List Handle) : List Writer :=
  writeClosers.map Writer.target ++ (if globalQuietFlag then [] else [Writer.bar])

/-- Lines 131 to 136 of `doCopyCmd`: unless `globalQuietFlag` is set, construct
the bar with `startBar(length)` and start it. -/
def setUpBar (globalQuietFlag : Bool) (length : Int) (env : Env σ) : Env σ :=
  if globalQuietFlag then env
  else ⟨env.world, env.trace ++ [Event.barStart length], some (startBar length)⟩

/-- The loop "close writers" of `doCopyCmd` (lines 145 to 150).  The body
declares its own `err` with `:=`, wraps it when it is not nil, and drops it at
the end of the body: the `err` of the enclosing function is not assigned, so
the loop returns only the `Env`. -/
def closeWriters (m : clientManager σ) : List Handle → Env σ → Env σ
  | [], env => env
  | writer :: rest, env =>
    let res := m.Close env.world writer
    let err := res.2
    let _err := if err ≠ none then iodineNew err [] else err
    closeWriters m rest ⟨res.1, env.trace ++ [Event.close writer res.2], env.bar⟩

/-- The deferred `reader.Close()` of `doCopyCmd`: it runs when the function
returns and its result is dropped. -/
def deferredReaderClose (m : clientManager σ) (reader : Handle) (out : Outcome σ) :
    Outcome σ :=
  let res := m.ReaderClose out.env.world reader
  ⟨out.msg, out.err,
    ⟨res.1, out.env.trace ++ [Event.readerClose reader res.2], out.env.bar⟩, out.copied⟩

/-- The function `doCopyCmd(manager, sourceURL, targetURLs)`, run from the
storage state `s` with the global `globalQuietFlag`. -/
def doCopyCmd (m : clientManager σ) (globalQuietFlag : Bool) (sourceURL : parsedURL)
    (targetURLs : List parsedURL) (s : σ) : Outcome σ :=
  let src := m.getSourceReader s sourceURL
  let env0 : Env σ := ⟨src.1, [Event.getSourceReader sourceURL src.2], none⟩
  match src.2 with
  | SourceResult.failed err =>
    ⟨"Unable to read from source", iodineNew (some err) [], env0, none⟩
  | SourceResult.opened reader length hexMd5 =>
    deferredReaderClose m reader
      (let tw := getTargetWriters m targetURLs hexMd5 length env0
       match tw.2 with
       | Except.error err =>
         ⟨"Unable to write to target", iodineNew (some err) [], tw.1, none⟩
       | Except.ok writeClosers =>
         let writers := copyWriters globalQuietFlag writeClosers
         let env1 := setUpBar globalQuietFlag length tw.1
         let cp := ioCopyN m reader writers length env1
         let err := cp.2.2
         let env2 := closeWriters m writeClosers cp.1
         if err ≠ none then
           ⟨"Unable to close all connections, write may of failed.", iodineNew err [], env2,
             some err⟩
         else ⟨"", none, env2, some err⟩)

/-- The fallback text of `runCopyCmd`. -/
def noErrorMessage : String :=
  "No error message present, please rerun with --debug and report a bug."

/-- Lines 101 to 108 of `runCopyCmd`: the line handed to `console.Errorln` for
the pair returned by `doCopyCmd`, or `none` when nothing is printed. -/
def runCopyCmdReport (humanReadableError : String) (err : Option Error) : Option String :=
  let err := iodineNew err []
  if err ≠ none then
    let humanReadableError :=
      if humanReadableError = "" then noErrorMessage else humanReadableError
    some ("mc: " ++ humanReadableError)
  else none

/-! ## Reading a trace -/

/-- The handle of a target `Close` call. -/
def Event.closed : Event → Option Handle
  | Event.close h _ => some h
  | _ => none

/-- The handle a successful `getTargetWriter` call returned. -/
def Event.openedTarget : Event → Option Handle
  | Event.getTargetWriter _ _ _ (TargetResult.opened h) => some h
  | _ => none

/-- The arguments of a `getTargetWriter` call. -/
def Event.targetCall : Event → Option (parsedURL × String × Int)
  | Event.getTargetWriter u md5Hex length _ => some (u, md5Hex, length)
  | _ => none

/-- The handle of a `Close` call on the source reader. -/
def Event.readerClosed : Event → Option Handle
  | Event.readerClose r _ => some r
  | _ => none

/-- The bytes a `Read` on the source returned. -/
def Event.dataRead : Event → Option (List Byte)
  | Event.read _ _ data _ => some data
  | _ => none

/-- The bytes the `i`-th member of the multi-writer accepted in a `Write`. -/
def Event.dataWritten (i : Nat) : Event → Option (List Byte)
  | Event.write j _ p n _ => if j = i then some (p.take n) else none
  | _ => none

/-- A `Read` on the source, a `Write` on a target, or a write to the bar. -/
def Event.isTransfer : Event → Bool
  | Event.read _ _ _ _ => true
  | Event.write _ _ _ _ _ => true
  | Event.barWrite _ => true
  | _ => false

/-- An event of the progress bar. -/
def Event.isBar : Event → Bool
  | Event.barStart _ => true
  | Event.barWrite _ => true
  | _ => false

/-- A `Write` on a target that returned an error or a count other than `len(p)`. -/
def Event.writeFailed : Event → Bool
  | Event.write _ _ p n err => n ≠ p.length || err.isSome
  | _ => false

/-- A target `Close` that returned an error. -/
def Event.closeFailed : Event → Bool
  | Event.close _ err => err.isSome
  | _ => false

/-- A `Read` on the source that returned `EOF`. -/
def Event.readEOF : Event → Bool
  | Event.read _ _ _ err => err = some Error.EOF
  | _ => false

/-- A `Close` call on a target. -/
def Event.isClose : Event → Bool
  | Event.close _ _ => true
  | _ => false

/-- A `getTargetWriter` call. -/
def Event.isAcquire : Event → Bool
  | Event.getTargetWriter _ _ _ _ => true
  | _ => false

/-- Target handles closed, in call order, one entry per `Close` call. -/
def closeCalls (t : List Event) : List Handle := t.filterMap Event.closed

/-- Target handles returned by `getTargetWriter`, in call order. -/
def openedTargets (t : List Event) : List Handle := t.filterMap Event.openedTarget

/-- Arguments of the `getTargetWriter` calls, in call order. -/
def targetCalls (t : List Event) : List (parsedURL × String × Int) :=
  t.filterMap Event.targetCall

/-- Source readers closed, one entry per `Close` call. -/
def readerCloseCalls (t : List Event) : List Handle := t.filterMap Event.readerClosed

/-- All bytes the source reader delivered, in order. -/
def bytesRead (t : List Event) : List Byte := (t.filterMap Event.dataRead).flatten

/-- All bytes the `i`-th target accepted, in order. -/
def bytesWritten (i : Nat) (t : List Event) : List Byte :=
  (t.filterMap (Event.dataWritten i)).flatten

/-- Starting in state `s`, `getTargetWriter` succeeds for each locator of the
list in turn: the state reached and the handles returned, or `none` when one
of the calls fails. -/
def opens (m : clientManager σ) (md5Hex : String) (length : Int) :
    σ → List parsedURL → Option (σ × List Handle)
  | s, [] => some (s, [])
  | s, u :: us =>
    match (m.getTargetWriter s u md5Hex length).2 with
    | TargetResult.failed _ => none
    | TargetResult.opened h =>
      (opens m md5Hex length (m.getTargetWriter s u md5Hex length).1 us).map
        (fun r => (r.1, h :: r.2))

/-- The events of successful `getTargetWriter` calls for `us` returning `hs`. -/
def openEvents (md5Hex : String) (length : Int) (us : List parsedURL) (hs : List Handle) :
    List Event :=
  List.zipWith (fun u h => Event.getTargetWriter u md5Hex length (TargetResult.opened h)) us hs

/-- The trace `t` put in front of the trace of `env`. -/
def Env.prepend (t : List Event) (env : Env σ) : Env σ :=
  ⟨env.world, t ++ env.trace, env.bar⟩

/-- The message of the streaming phase of `doCopyCmd`. -/
def closeMessage : String := "Unable to close all connections, write may of failed."

/-- What the copy loop over the targets `hs` guarantees about its result `res`
when started with limit `N`, count `written` and an empty trace: only transfer
events, at most `N` bytes read, a count of at most the bytes read, and, when
no write failed, a count of exactly the bytes read with every target having
accepted exactly the bytes read. -/
def CopySpec (hs : List Handle) (N written : Int) (res : Env σ × Int × Option Error) : Prop :=
  (∀ e ∈ res.1.trace, e.isTransfer = true) ∧
  (bytesRead res.1.trace).length ≤ N.toNat ∧
  res.2.1 ≤ written + (bytesRead res.1.trace).length ∧
  ((∀ e ∈ res.1.trace, e.writeFailed = false) →
    res.2.1 = written + (bytesRead res.1.trace).length ∧
    ∀ i, i < hs.length → bytesWritten i res.1.trace = bytesRead res.1.trace)

/-- The `Env` `q` of a quiet run matches the `Env` `l` of a run with the
progress bar: same storage state, the same trace once the events of the bar
are left out, and no bar in `q`. -/
def Quietens (q l : Env σ) : Prop :=
  q.world = l.world ∧ q.trace = l.trace.filter (fun e => !e.isBar) ∧ q.bar = none

/-- The outcome `a` of a quiet run matches the outcome `b` of a run with the
progress bar: the same returned pair, and matching `Env`s. -/
def QuietOutcome (a b : Outcome σ) : Prop :=
  Quietens a.env b.env ∧ a.msg = b.msg ∧ a.err = b.err ∧ a.copied = b.copied

/-- The bytes the handle `h`, as the `i`-th member of the multi-writer,
accepted in a `Write`. -/
def Event.dataWrittenTo (i : Nat) (h : Handle) : Event → Option (List Byte)
  | Event.write j k p n _ => if j = i ∧ k = h then some (p.take n) else none
  | _ => none

/-- All bytes the handle `h` accepted as the `i`-th member of the
multi-writer, in order. -/
def bytesWrittenTo (i : Nat) (h : Handle) (t : List Event) : List Byte :=
  (t.filterMap (Event.dataWrittenTo i h)).flatten

/-- A `Write` event is a write on the handle that stands at its position in
the list `hs`; every other event qualifies. -/
def Event.writesOn (hs : List Handle) : Event → Prop
  | Event.write j h _ _ _ => hs[j]? = some h
  | _ => True

/-- The source reader `reader` of the manager `m` delivers the stream of which
`content s` is what remains in state `s`: while bytes remain, a `Read` into a
non-empty buffer returns the next bytes of the stream, and returns an error
only together with the last of them; a `Write` on a target leaves the stream
as it is. -/
structure Delivers (m : clientManager σ) (reader : Handle) (content : σ → List Byte) :
    Prop where
  read_next : ∀ s n, 0 < n → content s ≠ [] →
    content s = (m.Read s reader n).2.1 ++ content (m.Read s reader n).1
  read_err : ∀ s n, 0 < n → content s ≠ [] →
    (m.Read s reader n).2.2 = none ∨ content (m.Read s reader n).1 = []
  write_keeps : ∀ s h p, content (m.Write s h p).1 = content s

/-- Every `Write` on every target handle accepts the whole chunk without error. -/
def WritesSucceed (m : clientManager σ) : Prop :=
  ∀ s h p, (m.Write s h p).2 = (p.length, none)

/-- A `Write` on a target that reported a count other than `len(p)`. -/
def Event.shortWrite : Event → Bool
  | Event.write _ _ p n _ => n ≠ p.length
  | _ => false

/-- What the progress bar adds right after an event of a quiet run, when it is
the last member of the multi-writer over the targets `hs`: a `Write` of the
chunk `p` to the bar follows the `Write` of `p` that the last target accepted
in full; with no targets at all it follows the `Read` that returned `p`. -/
def barAfter (hs : List Handle) : Event → List Event
  | Event.write i _ p n err =>
    if i + 1 = hs.length ∧ n = p.length ∧ err = none then [Event.barWrite p] else []
  | Event.read _ _ data _ =>
    if hs = [] ∧ data ≠ [] then [Event.barWrite data] else []
  | _ => []

/-- The trace `t` with the writes to the bar put in, see `barAfter`. -/
def insertBar (hs : List Handle) : List Event → List Event
  | [] => []
  | e :: t => e :: (barAfter hs e ++ insertBar hs t)

/-! ## A concrete storage layer -/

/-- State of the example storage layer: the bytes the source object has still
to deliver and the next handle to hand out. -/
structure Store where
  content : List Byte
  next : Handle
  deriving DecidableEq, Repr

/-- An example `clientManager`.  The source declares `declared` bytes with hash
`abc123` and delivers its content in chunks of at most `chunk` bytes, then
`EOF`; acquiring the source or a target in bucket `badBucket` fails; writes
succeed in full; `Close` on a target fails when `closeFails` is set. -/
def demoManager (declared : Int) (chunk : Nat) (badBucket : String) (closeFails : Bool) :
    clientManager Store where
  getSourceReader s u :=
    if u.bucketName = badBucket then (s, SourceResult.failed (Error.other "no such bucket"))
    else (s, SourceResult.opened 0 declared "abc123")
  getTargetWriter s u _ _ :=
    if u.bucketName = badBucket then (s, TargetResult.failed (Error.other "no such bucket"))
    else (⟨s.content, s.next + 1⟩, TargetResult.opened s.next)
  Read s _ n :=
    if s.content.take (min n chunk) = [] then (s, [], some Error.EOF)
    else (⟨s.content.drop (min n chunk), s.next⟩, s.content.take (min n chunk), none)
  ReaderClose s _ := (s, none)
  Write s _ p := (s, p.length, none)
  Close s _ := (s, if closeFails then some (Error.other "close failed") else none)
  read_le s r n := by
    by_cases h : s.content.take (min n chunk) = []
    · simp [h]
    · simp only [h, if_false, List.length_take]
      omega
  read_progress s r n _ := by
    by_cases h : s.content.take (min n chunk) = []
    · simp [h]
    · simp [h]
  write_le _ _ _ := Nat.le_refl _

/-- The locator `bucket/obj`. -/
def loc (bucket : String) : parsedURL := ⟨bucket, "obj", bucket ++ "/obj"⟩

/-- An example `clientManager` whose targets fail late: it is
`demoManager declared chunk "bad" false`, except that every `Write` returns the
full count `len(p)` together with the error "write failed". -/
def lateErrorManager (declared : Int) (chunk : Nat) : clientManager Store where
  getSourceReader := (demoManager declared chunk "bad" false).getSourceReader
  getTargetWriter := (demoManager declared chunk "bad" false).getTargetWriter
  Read := (demoManager declared chunk "bad" false).Read
  ReaderClose := (demoManager declared chunk "bad" false).ReaderClose
  Write s _ p := (s, p.length, some (Error.other "write failed"))
  Close := (demoManager declared chunk "bad" false).Close
  read_le := (demoManager declared chunk "bad" false).read_le
  read_progress := (demoManager declared chunk "bad" false).read_progress
  write_le _ _ _ := Nat.le_refl _

/-! ## The trace is only appended to -/

@[simp] theorem Env.prepend_nil (env : Env σ) : env.prepend [] = env := by
  cases env; simp [Env.prepend]

@[simp] theorem Env.prepend_prepend (t u : List Event) (env : Env σ) :
    (env.prepend u).prepend t = env.prepend (t ++ u) := by
  simp [Env.prepend]

@[simp] theorem Env.prepend_world (t : List Event) (env : Env σ) :
    (env.prepend t).world = env.world := rfl

@[simp] theorem Env.prepend_trace (t : List Event) (env : Env σ) :
    (env.prepend t).trace = t ++ env.trace := rfl

@[simp] theorem Env.prepend_bar (t : List Event) (env : Env σ) :
    (env.prepend t).bar = env.bar := rfl

theorem writerWrite_prepend (m : clientManager σ) (i : Nat) (w : Writer) (p : List Byte)
    (t : List Event) (env : Env σ) :
    writerWrite m i w p (env.prepend t) =
      ((writerWrite m i w p env).1.prepend t, (writerWrite m i w p env).2) := by
  cases w <;> simp [writerWrite, Env.prepend]

theorem multiWriterWrite_prepend (m : clientManager σ) (p : List Byte) (ws : List Writer)
    (i : Nat) (t : List Event) (env : Env σ) :
    multiWriterWrite m p ws i (env.prepend t) =
      ((multiWriterWrite m p ws i env).1.prepend t, (multiWriterWrite m p ws i env).2) := by
  induction ws generalizing i env with
  | nil => simp [multiWriterWrite]
  | cons w ws ih =>
    simp only [multiWriterWrite, writerWrite_prepend]
    split
    · rfl
    · split
      · rfl
      · exact ih _ _

theorem readerRead_prepend (m : clientManager σ) (r : Handle) (n : Nat)
    (t : List Event) (env : Env σ) :
    readerRead m r n (env.prepend t) =
      ((readerRead m r n env).1.prepend t, (readerRead m r n env).2) := by
  simp [readerRead, Env.prepend]

theorem copyLoop_prepend (m : clientManager σ) (r : Handle) (ws : List Writer)
    (fuel : Nat) (N written : Int) (t : List Event) (env : Env σ) :
    copyLoop m r ws fuel N written (env.prepend t) =
      ((copyLoop m r ws fuel N written env).1.prepend t,
        (copyLoop m r ws fuel N written env).2) := by
  induction fuel generalizing N written env with
  | zero => simp [copyLoop]
  | succ fuel ih =>
    simp only [copyLoop, readerRead_prepend, multiWriterWrite_prepend]
    split
    · rfl
    · split
      · split
        · rfl
        · split
          · rfl
          · split
            · rfl
            · rfl
            · exact ih _ _ _
      · split
        · rfl
        · rfl
        · exact ih _ _ _

theorem ioCopyN_prepend (m : clientManager σ) (r : Handle) (ws : List Writer)
    (n : Int) (t : List Event) (env : Env σ) :
    ioCopyN m r ws n (env.prepend t) =
      ((ioCopyN m r ws n env).1.prepend t, (ioCopyN m r ws n env).2) := by
  simp only [ioCopyN, copyLoop_prepend]
  split
  · rfl
  · split <;> rfl

theorem Env.eq_prepend (env : Env σ) :
    env = (Env.mk env.world [] env.bar).prepend env.trace := by
  cases env; simp [Env.prepend]

/-! ## Projections of trace segments -/

theorem filterMap_none {α β : Type} (f : α → Option β) (t : List α)
    (h : ∀ e ∈ t, f e = none) : t.filterMap f = [] := by
  induction t with
  | nil => rfl
  | cons a t ih =>
    have ha := h a (List.mem_cons_self a t)
    simp [List.filterMap_cons, ha, ih (fun e he => h e (List.mem_cons_of_mem a he))]

theorem closes_openedTargets (t : List Event) (h : ∀ e ∈ t, e.isClose = true) :
    openedTargets t = [] :=
  filterMap_none _ _ (fun e he => by
    have := h e he
    cases e <;> simp_all [Event.isClose, Event.openedTarget])

theorem closes_targetCalls (t : List Event) (h : ∀ e ∈ t, e.isClose = true) :
    targetCalls t = [] :=
  filterMap_none _ _ (fun e he => by
    have := h e he
    cases e <;> simp_all [Event.isClose, Event.targetCall])

theorem closes_readerCloseCalls (t : List Event) (h : ∀ e ∈ t, e.isClose = true) :
    readerCloseCalls t = [] :=
  filterMap_none _ _ (fun e he => by
    have := h e he
    cases e <;> simp_all [Event.isClose, Event.readerClosed])

theorem closes_bytesRead (t : List Event) (h : ∀ e ∈ t, e.isClose = true) :
    bytesRead t = [] := by
  unfold bytesRead
  rw [filterMap_none _ _ (fun e he => by
    have := h e he
    cases e <;> simp_all [Event.isClose, Event.dataRead])]
  rfl

theorem closes_bytesWritten (i : Nat) (t : List Event) (h : ∀ e ∈ t, e.isClose = true) :
    bytesWritten i t = [] := by
  unfold bytesWritten
  rw [filterMap_none _ _ (fun e he => by
    have := h e he
    cases e <;> simp_all [Event.isClose, Event.dataWritten])]
  rfl

theorem closes_flags (t : List Event) (h : ∀ e ∈ t, e.isClose = true) :
    ∀ e ∈ t, e.isTransfer = false ∧ e.isBar = false ∧ e.writeFailed = false ∧
      e.readEOF = false ∧ e.isAcquire = false := by
  intro e he
  have := h e he
  cases e <;> simp_all [Event.isClose, Event.isTransfer, Event.isBar, Event.writeFailed,
    Event.readEOF, Event.isAcquire]

theorem acquires_closeCalls (t : List Event) (h : ∀ e ∈ t, e.isAcquire = true) :
    closeCalls t = [] :=
  filterMap_none _ _ (fun e he => by
    have := h e he
    cases e <;> simp_all [Event.isAcquire, Event.closed])

theorem acquires_readerCloseCalls (t : List Event) (h : ∀ e ∈ t, e.isAcquire = true) :
    readerCloseCalls t = [] :=
  filterMap_none _ _ (fun e he => by
    have := h e he
    cases e <;> simp_all [Event.isAcquire, Event.readerClosed])

theorem acquires_bytesRead (t : List Event) (h : ∀ e ∈ t, e.isAcquire = true) :
    bytesRead t = [] := by
  unfold bytesRead
  rw [filterMap_none _ _ (fun e he => by
    have := h e he
    cases e <;> simp_all [Event.isAcquire, Event.dataRead])]
  rfl

theorem acquires_bytesWritten (i : Nat) (t : List Event)
    (h : ∀ e ∈ t, e.isAcquire = true) : bytesWritten i t = [] := by
  unfold bytesWritten
  rw [filterMap_none _ _ (fun e he => by
    have := h e he
    cases e <;> simp_all [Event.isAcquire, Event.dataWritten])]
  rfl

theorem acquires_flags (t : List Event) (h : ∀ e ∈ t, e.isAcquire = true) :
    ∀ e ∈ t, e.isTransfer = false ∧ e.isBar = false ∧ e.writeFailed = false ∧
      e.readEOF = false ∧ e.isClose = false ∧ e.closeFailed = false := by
  intro e he
  have := h e he
  cases e <;> simp_all [Event.isClose, Event.isTransfer, Event.isBar, Event.writeFailed,
    Event.readEOF, Event.isAcquire, Event.closeFailed]

theorem transfers_closeCalls (t : List Event) (h : ∀ e ∈ t, e.isTransfer = true) :
    closeCalls t = [] :=
  filterMap_none _ _ (fun e he => by
    have := h e he
    cases e <;> simp_all [Event.isTransfer, Event.closed])

theorem transfers_openedTargets (t : List Event) (h : ∀ e ∈ t, e.isTransfer = true) :
    openedTargets t = [] :=
  filterMap_none _ _ (fun e he => by
    have := h e he
    cases e <;> simp_all [Event.isTransfer, Event.openedTarget])

theorem transfers_targetCalls (t : List Event) (h : ∀ e ∈ t, e.isTransfer = true) :
    targetCalls t = [] :=
  filterMap_none _ _ (fun e he => by
    have := h e he
    cases e <;> simp_all [Event.isTransfer, Event.targetCall])

theorem transfers_readerCloseCalls (t : List Event) (h : ∀ e ∈ t, e.isTransfer = true) :
    readerCloseCalls t = [] :=
  filterMap_none _ _ (fun e he => by
    have := h e he
    cases e <;> simp_all [Event.isTransfer, Event.readerClosed])

theorem transfers_flags (t : List Event) (h : ∀ e ∈ t, e.isTransfer = true) :
    ∀ e ∈ t, e.isClose = false ∧ e.closeFailed = false ∧ e.isAcquire = false := by
  intro e he
  have := h e he
  cases e <;> simp_all [Event.isClose, Event.isTransfer, Event.isAcquire, Event.closeFailed]

/-! ## Closing and acquiring -/

theorem closeWriters_eq_closeAll (m : clientManager σ) (hs : List Handle) (env : Env σ) :
    closeWriters m hs env = closeAll m hs env := by
  induction hs generalizing env with
  | nil => rfl
  | cons h hs ih => simp only [closeWriters, closeAll, ih]

theorem closeAll_spec (m : clientManager σ) (hs : List Handle) (env : Env σ) :
    ∃ t, (closeAll m hs env).trace = env.trace ++ t ∧ (closeAll m hs env).bar = env.bar ∧
      closeCalls t = hs ∧ ∀ e ∈ t, e.isClose = true := by
  induction hs generalizing env with
  | nil => exact ⟨[], by simp [closeAll, closeCalls]⟩
  | cons h hs ih =>
    obtain ⟨t, h1, h2, h3, h4⟩ :=
      ih ⟨(m.Close env.world h).1, env.trace ++ [Event.close h (m.Close env.world h).2], env.bar⟩
    refine ⟨Event.close h (m.Close env.world h).2 :: t, ?_, ?_, ?_, ?_⟩
    · simp only [closeAll, h1]; simp
    · simp only [closeAll, h2]
    · simp only [closeCalls] at h3 ⊢
      simp [List.filterMap_cons, Event.closed, h3]
    · intro e he
      rcases List.mem_cons.1 he with rfl | he
      · rfl
      · exact h4 e he

theorem opens_length (m : clientManager σ) (md5Hex : String) (length : Int)
    (us : List parsedURL) (s s2 : σ) (hs : List Handle)
    (h : opens m md5Hex length s us = some (s2, hs)) : hs.length = us.length := by
  induction us generalizing s hs with
  | nil => simp [opens] at h; simp [h.2.symm]
  | cons u us ih =>
    simp only [opens] at h
    split at h
    · simp at h
    · rename_i w hw
      cases hrec : opens m md5Hex length (m.getTargetWriter s u md5Hex length).1 us with
      | none => simp [hrec] at h
      | some r =>
        simp [hrec] at h
        obtain ⟨h1, h2⟩ := h
        have := ih _ r.2 (by rw [hrec, ← h1])
        rw [← h2]; simp [this]

theorem openEvents_acquire (md5Hex : String) (length : Int) (us : List parsedURL)
    (hs : List Handle) : ∀ e ∈ openEvents md5Hex length us hs, e.isAcquire = true := by
  induction us generalizing hs with
  | nil => simp [openEvents]
  | cons u us ih =>
    cases hs with
    | nil => simp [openEvents]
    | cons h hs =>
      intro e he
      simp only [openEvents, List.zipWith_cons_cons, List.mem_cons] at he
      rcases he with rfl | he
      · rfl
      · exact ih hs e he

theorem openEvents_openedTargets (md5Hex : String) (length : Int) (us : List parsedURL)
    (hs : List Handle) (hlen : hs.length = us.length) :
    openedTargets (openEvents md5Hex length us hs) = hs := by
  induction us generalizing hs with
  | nil => cases hs with
    | nil => rfl
    | cons h hs => simp at hlen
  | cons u us ih =>
    cases hs with
    | nil => simp at hlen
    | cons h hs =>
      have := ih hs (by simpa using hlen)
      simp only [openedTargets, openEvents] at this ⊢
      simp [List.filterMap_cons, Event.openedTarget, this]

theorem openEvents_targetCalls (md5Hex : String) (length : Int) (us : List parsedURL)
    (hs : List Handle) (hlen : hs.length = us.length) :
    targetCalls (openEvents md5Hex length us hs) = us.map (fun u => (u, md5Hex, length)) := by
  induction us generalizing hs with
  | nil => cases hs with
    | nil => rfl
    | cons h hs => simp at hlen
  | cons u us ih =>
    cases hs with
    | nil => simp at hlen
    | cons h hs =>
      have := ih hs (by simpa using hlen)
      simp only [targetCalls, openEvents] at this ⊢
      simp [List.filterMap_cons, Event.targetCall, this]

theorem getTargetWritersLoop_ok (m : clientManager σ) (md5Hex : String) (length : Int)
    (us : List parsedURL) (acc : List Handle) (env : Env σ) (s2 : σ) (hs : List Handle)
    (h : opens m md5Hex length env.world us = some (s2, hs)) :
    getTargetWritersLoop m md5Hex length us acc env =
      (⟨s2, env.trace ++ openEvents md5Hex length us hs, env.bar⟩, Except.ok (acc ++ hs)) := by
  induction us generalizing acc env hs with
  | nil =>
    simp [opens] at h
    obtain ⟨rfl, rfl⟩ := h
    simp [getTargetWritersLoop, openEvents]
  | cons u us ih =>
    simp only [opens] at h
    split at h
    · simp at h
    · rename_i w hw
      cases hrec : opens m md5Hex length (m.getTargetWriter env.world u md5Hex length).1 us with
      | none => simp [hrec] at h
      | some r =>
        simp [hrec] at h
        obtain ⟨rfl, rfl⟩ := h
        simp only [getTargetWritersLoop, hw]
        rw [ih (acc ++ [w]) _ r.2 (by simpa using hrec)]
        simp [openEvents]

theorem getTargetWritersLoop_fail (m : clientManager σ) (md5Hex : String) (length : Int)
    (pre : List parsedURL) (u : parsedURL) (post : List parsedURL) (acc : List Handle)
    (env : Env σ) (s2 : σ) (hs : List Handle) (e : Error)
    (h : opens m md5Hex length env.world pre = some (s2, hs))
    (hf : (m.getTargetWriter s2 u md5Hex length).2 = TargetResult.failed e) :
    getTargetWritersLoop m md5Hex length (pre ++ u :: post) acc env =
      (closeAll m (acc ++ hs)
          ⟨(m.getTargetWriter s2 u md5Hex length).1,
            env.trace ++ openEvents md5Hex length pre hs ++
              [Event.getTargetWriter u md5Hex length (TargetResult.failed e)], env.bar⟩,
        Except.error (Error.iodine e [("failedURL", u.String)])) := by
  induction pre generalizing acc env hs with
  | nil =>
    simp [opens] at h
    obtain ⟨rfl, rfl⟩ := h
    simp [getTargetWritersLoop, openEvents, hf]
  | cons v pre ih =>
    simp only [opens] at h
    split at h
    · simp at h
    · rename_i w hw
      cases hrec : opens m md5Hex length (m.getTargetWriter env.world v md5Hex length).1 pre with
      | none => simp [hrec] at h
      | some r =>
        simp [hrec] at h
        obtain ⟨rfl, rfl⟩ := h
        have hstep := ih (acc ++ [w])
          ⟨(m.getTargetWriter env.world v md5Hex length).1,
            env.trace ++ [Event.getTargetWriter v md5Hex length (TargetResult.opened w)],
            env.bar⟩ r.2 hrec
        rw [List.cons_append]
        simp only [getTargetWritersLoop, hw]
        rw [hstep]
        simp [openEvents]

/-! ## The multi-writer -/

theorem bytesRead_append (t u : List Event) : bytesRead (t ++ u) = bytesRead t ++ bytesRead u := by
  simp [bytesRead, List.filterMap_append]

theorem bytesWritten_append (i : Nat) (t u : List Event) :
    bytesWritten i (t ++ u) = bytesWritten i t ++ bytesWritten i u := by
  simp [bytesWritten, List.filterMap_append]

theorem writerWrite_trace (m : clientManager σ) (i : Nat) (w : Writer) (p : List Byte)
    (env : Env σ) :
    ∃ e, (writerWrite m i w p env).1.trace = env.trace ++ [e] ∧ e.isTransfer = true ∧
      Event.dataRead e = none ∧ (writerWrite m i w p env).2.1 ≤ p.length ∧
      (e.writeFailed = false →
        (writerWrite m i w p env).2 = (p.length, none) ∧
        ∀ j, Event.dataWritten j e = if w ≠ Writer.bar ∧ j = i then some p else none) := by
  cases w with
  | target h =>
    refine ⟨Event.write i h p (m.Write env.world h p).2.1 (m.Write env.world h p).2.2,
      rfl, rfl, rfl, m.write_le _ _ _, ?_⟩
    intro hf
    simp only [Event.writeFailed, Bool.or_eq_false_iff, decide_eq_false_iff_not, ne_eq,
      not_not] at hf
    obtain ⟨h1, h2⟩ := hf
    have h3 : (m.Write env.world h p).2.2 = none := by
      cases hx : (m.Write env.world h p).2.2 with
      | none => rfl
      | some x => rw [hx] at h2; simp at h2
    refine ⟨?_, ?_⟩
    · simp only [writerWrite]
      rw [h1, h3]
    · intro j
      simp only [Event.dataWritten, h1, List.take_length]
      by_cases hj : i = j
      · simp [hj]
      · have : ¬ j = i := fun h => hj h.symm
        simp [hj, this]
  | bar =>
    refine ⟨Event.barWrite p, rfl, rfl, rfl, Nat.le_refl _, ?_⟩
    intro _
    exact ⟨rfl, fun j => by simp [Event.dataWritten]⟩

/-- What one `Write` of the multi-writer over the targets `hs`, followed by the
bar when `quiet` is false, adds to an empty trace. -/
theorem multiWriterWrite_spec (m : clientManager σ) (p : List Byte) (quiet : Bool)
    (hs : List Handle) (i0 : Nat) (env : Env σ) (hnil : env.trace = []) :
    (∀ e ∈ (multiWriterWrite m p (copyWriters quiet hs) i0 env).1.trace,
        e.isTransfer = true) ∧
      bytesRead (multiWriterWrite m p (copyWriters quiet hs) i0 env).1.trace = [] ∧
      (multiWriterWrite m p (copyWriters quiet hs) i0 env).2.1 ≤ p.length ∧
      ((∀ e ∈ (multiWriterWrite m p (copyWriters quiet hs) i0 env).1.trace,
          e.writeFailed = false) →
        (multiWriterWrite m p (copyWriters quiet hs) i0 env).2 = (p.length, none) ∧
        ∀ i, bytesWritten i (multiWriterWrite m p (copyWriters quiet hs) i0 env).1.trace =
          if i0 ≤ i ∧ i < i0 + hs.length then p else []) := by
  induction hs generalizing i0 env with
  | nil =>
    cases quiet with
    | true =>
      simp [copyWriters, multiWriterWrite, hnil, bytesRead, bytesWritten]
    | false =>
      simp [copyWriters, multiWriterWrite, writerWrite, hnil, bytesRead, Event.isTransfer,
        Event.dataRead, bytesWritten, Event.dataWritten]
  | cons h hs ih =>
    obtain ⟨e, he1, he2, he3, he4, he5⟩ := writerWrite_trace m i0 (Writer.target h) p env
    rw [hnil, List.nil_append] at he1
    have hcw : copyWriters quiet (h :: hs) = Writer.target h :: copyWriters quiet hs := by
      simp [copyWriters]
    rw [hcw]
    simp only [multiWriterWrite]
    split
    · rename_i x hx
      refine ⟨?_, ?_, he4, ?_⟩
      · intro e' he'
        rw [he1] at he'
        simp only [List.mem_singleton] at he'
        rw [he']; exact he2
      · rw [he1]; simp [bytesRead, he3]
      · intro hall
        have := (he5 (hall e (by rw [he1]; simp))).1
        rw [this] at hx
        simp at hx
    · rename_i hx
      split
      · rename_i hne
        refine ⟨?_, ?_, he4, ?_⟩
        · intro e' he'
          rw [he1] at he'
          simp only [List.mem_singleton] at he'
          rw [he']; exact he2
        · rw [he1]; simp [bytesRead, he3]
        · intro hall
          have := (he5 (hall e (by rw [he1]; simp))).1
          rw [this] at hne
          simp at hne
      · rename_i hne
        rw [Env.eq_prepend (writerWrite m i0 (Writer.target h) p env).1,
          multiWriterWrite_prepend, he1]
        obtain ⟨a1, a2, a3, a4⟩ := ih (i0 + 1)
          ⟨(writerWrite m i0 (Writer.target h) p env).1.world, [],
            (writerWrite m i0 (Writer.target h) p env).1.bar⟩ rfl
        refine ⟨?_, ?_, a3, ?_⟩
        · intro e' he'
          simp only [Env.prepend_trace, List.mem_append, List.mem_singleton] at he'
          rcases he' with rfl | he'
          · exact he2
          · exact a1 e' he'
        · simp only [Env.prepend_trace, bytesRead_append, a2]
          simp [bytesRead, he3]
        · intro hall
          simp only [Env.prepend_trace] at hall
          have hfe := he5 (hall e (by simp))
          obtain ⟨b1, b2⟩ := a4 (fun e' he' => hall e' (by simp [he']))
          refine ⟨b1, ?_⟩
          intro i
          simp only [Env.prepend_trace, bytesWritten_append, b2 i]
          by_cases hi : i = i0
          · subst hi
            simp [bytesWritten, hfe.2]
          · have hw0 : bytesWritten i [e] = [] := by
              simp [bytesWritten, hfe.2, hi]
            rw [hw0, List.nil_append]
            by_cases hc : i0 + 1 ≤ i ∧ i < i0 + 1 + hs.length
            · have hc2 : i0 ≤ i ∧ i < i0 + (h :: hs).length := by
                simp only [List.length_cons]; omega
              rw [if_pos hc, if_pos hc2]
            · have hc2 : ¬ (i0 ≤ i ∧ i < i0 + (h :: hs).length) := by
                simp only [List.length_cons]; omega
              rw [if_neg hc, if_neg hc2]

/-! ## The copy loop -/

theorem copyLoop_nonpos (m : clientManager σ) (r : Handle) (ws : List Writer) (fuel : Nat)
    (N written : Int) (env : Env σ) (hN : N ≤ 0) :
    copyLoop m r ws fuel N written env = (env, written, none) := by
  cases fuel with
  | zero => rfl
  | succ fuel => simp [copyLoop, hN]

/-- One round that stops: the trace is the read followed by the writes. -/
theorem CopySpec_stop (hs : List Handle) (N written written1 : Int) (w : σ)
    (b : Option ProgressBar) (err : Option Error) (ev : Event) (data : List Byte)
    (tw : List Event) (hev : Event.dataRead ev = some data) (hevt : ev.isTransfer = true)
    (htw : ∀ e ∈ tw, e.isTransfer = true) (hbr : bytesRead tw = [])
    (hle : data.length ≤ N.toNat) (hw1 : written1 ≤ written + data.length)
    (hfull : (∀ e ∈ tw, e.writeFailed = false) →
      written1 = written + data.length ∧ ∀ i, i < hs.length → bytesWritten i tw = data) :
    CopySpec hs N written (⟨w, ev :: tw, b⟩, written1, err) := by
  have hb : bytesRead (ev :: tw) = data := by
    have : bytesRead (ev :: tw) = bytesRead [ev] ++ bytesRead tw := bytesRead_append [ev] tw
    rw [this, hbr]
    simp [bytesRead, hev]
  have hbw : ∀ i, bytesWritten i (ev :: tw) = bytesWritten i tw := by
    intro i
    have : bytesWritten i (ev :: tw) = bytesWritten i [ev] ++ bytesWritten i tw :=
      bytesWritten_append i [ev] tw
    rw [this]
    cases ev <;> simp_all [bytesWritten, Event.dataWritten, Event.dataRead]
  refine ⟨?_, ?_, ?_, ?_⟩
  · intro e he
    rcases List.mem_cons.1 he with rfl | he
    · exact hevt
    · exact htw e he
  · simp only [hb]; exact hle
  · simp only [hb]; exact hw1
  · intro hall
    simp only [hb, hbw]
    exact hfull (fun e he => hall e (List.mem_cons_of_mem _ he))

/-- One round that continues: the trace is the read, the writes, and the trace
of the remaining rounds. -/
theorem CopySpec_step (hs : List Handle) (N written written1 : Int)
    (ev : Event) (data : List Byte) (tw : List Event)
    (res : Env σ × Int × Option Error)
    (hev : Event.dataRead ev = some data) (hevt : ev.isTransfer = true)
    (htw : ∀ e ∈ tw, e.isTransfer = true) (hbr : bytesRead tw = [])
    (hN : 0 < N) (hle : data.length ≤ N.toNat) (hw1 : written1 ≤ written + data.length)
    (hfull : (∀ e ∈ tw, e.writeFailed = false) →
      written1 = written + data.length ∧ ∀ i, i < hs.length → bytesWritten i tw = data)
    (hrec : CopySpec hs (N - data.length) written1 res) :
    CopySpec hs N written (res.1.prepend (ev :: tw), res.2) := by
  obtain ⟨r1, r2, r3, r4⟩ := hrec
  have hb : bytesRead (ev :: tw ++ res.1.trace) = data ++ bytesRead res.1.trace := by
    have h1 : bytesRead (ev :: tw ++ res.1.trace) =
        bytesRead [ev] ++ (bytesRead tw ++ bytesRead res.1.trace) := by
      rw [← bytesRead_append, ← bytesRead_append]; rfl
    rw [h1, hbr]
    simp [bytesRead, hev]
  have hbw : ∀ i, bytesWritten i (ev :: tw ++ res.1.trace) =
      bytesWritten i tw ++ bytesWritten i res.1.trace := by
    intro i
    have h1 : bytesWritten i (ev :: tw ++ res.1.trace) =
        bytesWritten i [ev] ++ (bytesWritten i tw ++ bytesWritten i res.1.trace) := by
      rw [← bytesWritten_append, ← bytesWritten_append]; rfl
    rw [h1]
    cases ev <;> simp_all [bytesWritten, Event.dataWritten, Event.dataRead]
  refine ⟨?_, ?_, ?_, ?_⟩
  · intro e he
    simp only [Env.prepend_trace, List.mem_append, List.mem_cons] at he
    rcases he with (rfl | he) | he
    · exact hevt
    · exact htw e he
    · exact r1 e he
  · simp only [Env.prepend_trace, hb, List.length_append]
    omega
  · simp only [Env.prepend_trace, hb, List.length_append]
    push_cast
    omega
  · intro hall
    simp only [Env.prepend_trace] at hall
    obtain ⟨f1, f2⟩ := hfull (fun e he => hall e (by simp [he]))
    obtain ⟨g1, g2⟩ := r4 (fun e he => hall e (by simp [he]))
    refine ⟨?_, ?_⟩
    · simp only [Env.prepend_trace, hb, List.length_append]
      push_cast
      omega
    · intro i hi
      simp only [Env.prepend_trace, hb, hbw, f2 i hi, g2 i hi]

theorem copyLoop_spec (m : clientManager σ) (r : Handle) (quiet : Bool) (hs : List Handle)
    (fuel : Nat) (N written : Int) (w : σ) (b : Option ProgressBar) :
    CopySpec hs N written (copyLoop m r (copyWriters quiet hs) fuel N written ⟨w, [], b⟩) := by
  induction fuel generalizing N written w b with
  | zero =>
    refine ⟨?_, ?_, ?_, ?_⟩ <;> simp [copyLoop, bytesRead, bytesWritten]
  | succ fuel ih =>
    by_cases hN : N ≤ 0
    · rw [copyLoop_nonpos m r _ _ N written _ hN]
      refine ⟨?_, ?_, ?_, ?_⟩ <;> simp [bytesRead, bytesWritten]
    · have hNpos : 0 < N := by omega
      have hrle := m.read_le w r (min copyBufSize N.toNat)
      have hle : (m.Read w r (min copyBufSize N.toNat)).2.1.length ≤ N.toNat :=
        le_trans hrle (Nat.min_le_right _ _)
      have hmw := multiWriterWrite_spec m (m.Read w r (min copyBufSize N.toNat)).2.1 quiet hs 0
        ⟨(m.Read w r (min copyBufSize N.toNat)).1, [], b⟩ rfl
      have hpre := multiWriterWrite_prepend m (m.Read w r (min copyBufSize N.toNat)).2.1
        (copyWriters quiet hs) 0
        [Event.read r (min copyBufSize N.toNat) (m.Read w r (min copyBufSize N.toNat)).2.1
          (m.Read w r (min copyBufSize N.toNat)).2.2]
        ⟨(m.Read w r (min copyBufSize N.toNat)).1, [], b⟩
      simp only [Env.prepend, List.append_nil] at hpre
      simp only [copyLoop, hN, if_false, readerRead, List.nil_append, hpre]
      generalize hrr : m.Read w r (min copyBufSize N.toNat) = rr at hle hmw hpre
      generalize hmm : multiWriterWrite m rr.2.1 (copyWriters quiet hs) 0 ⟨rr.1, [], b⟩ = mw
        at hmw hpre
      obtain ⟨m1, m2, m3, m4⟩ := hmw
      have hfull : ∀ (written1 : Int), written1 = (if 0 < mw.2.1 then written + mw.2.1 else written) →
          0 < rr.2.1.length → written1 ≤ written + rr.2.1.length ∧
          ((∀ e ∈ mw.1.trace, e.writeFailed = false) →
            written1 = written + rr.2.1.length ∧
            ∀ i, i < hs.length → bytesWritten i mw.1.trace = rr.2.1) := by
        intro written1 hw1 hpos
        refine ⟨?_, ?_⟩
        · rw [hw1]; split <;> omega
        · intro hall
          obtain ⟨c1, c2⟩ := m4 hall
          have hn : mw.2.1 = rr.2.1.length := by rw [c1]
          refine ⟨?_, ?_⟩
          · rw [hw1, hn]; simp [hpos]
          · intro i hi
            rw [c2 i]; simp [hi]
      split
      · rename_i hpos
        obtain ⟨f1, f2⟩ := hfull _ rfl hpos
        split
        · rename_i ew hew
          refine CopySpec_stop hs N written _ _ _ _ _ rr.2.1 _ rfl rfl m1 m2 hle f1 ?_
          intro hall
          have := (m4 hall).1
          rw [this] at hew
          simp at hew
        · rename_i hew
          split
          · rename_i hne
            refine CopySpec_stop hs N written _ _ _ _ _ rr.2.1 _ rfl rfl m1 m2 hle f1 ?_
            intro hall
            have := (m4 hall).1
            rw [this] at hne
            simp at hne
          · split
            · exact CopySpec_stop hs N written _ _ _ _ _ rr.2.1 _ rfl rfl m1 m2 hle f1 f2
            · exact CopySpec_stop hs N written _ _ _ _ _ rr.2.1 _ rfl rfl m1 m2 hle f1 f2
            · have hrec := ih (N - rr.2.1.length)
                (if 0 < mw.2.1 then written + mw.2.1 else written) mw.1.world mw.1.bar
              have hfr := copyLoop_prepend m r (copyWriters quiet hs) fuel (N - rr.2.1.length)
                (if 0 < mw.2.1 then written + mw.2.1 else written)
                (Event.read r (min copyBufSize N.toNat) rr.2.1 rr.2.2 :: mw.1.trace)
                ⟨mw.1.world, [], mw.1.bar⟩
              simp only [Env.prepend, List.append_nil] at hfr
              simp only [List.singleton_append, hfr]
              exact CopySpec_step hs N written _ _ rr.2.1 _ _ rfl rfl m1 m2 hNpos hle f1 f2 hrec
      · rename_i hpos
        have hdata : rr.2.1 = [] := by
          cases hd : rr.2.1 with
          | nil => rfl
          | cons a l => rw [hd] at hpos; simp at hpos
        have hstop : ∀ (err : Option Error), CopySpec hs N written
            ((⟨rr.1, [Event.read r (min copyBufSize N.toNat) rr.2.1 rr.2.2], b⟩ : Env σ),
              written, err) := by
          intro err
          refine CopySpec_stop hs N written written rr.1 b err _ rr.2.1 [] rfl rfl
            (by simp) rfl hle (by omega) ?_
          intro _
          refine ⟨by simp [hdata], ?_⟩
          intro i _
          simp [bytesWritten, hdata]
        split
        · exact hstop _
        · exact hstop _
        · have hrec := ih (N - rr.2.1.length) written rr.1 b
          have hfr := copyLoop_prepend m r (copyWriters quiet hs) fuel (N - rr.2.1.length)
            written [Event.read r (min copyBufSize N.toNat) rr.2.1 rr.2.2] ⟨rr.1, [], b⟩
          simp only [Env.prepend, List.append_nil] at hfr
          rw [hfr]
          refine CopySpec_step hs N written written _ rr.2.1 [] _ rfl rfl (by simp) rfl hNpos hle
            (by omega) ?_ hrec
          intro _
          refine ⟨by simp [hdata], ?_⟩
          intro i _
          simp [bytesWritten, hdata]

/-! ## `io.CopyN` -/

theorem ioCopyN_env (m : clientManager σ) (r : Handle) (ws : List Writer) (n : Int)
    (env : Env σ) : (ioCopyN m r ws n env).1 = (copyLoop m r ws (n.toNat + 1) n 0 env).1 := by
  simp only [ioCopyN]
  split
  · rfl
  · split <;> rfl

theorem ioCopyN_spec (m : clientManager σ) (r : Handle) (quiet : Bool) (hs : List Handle)
    (n : Int) (w : σ) (b : Option ProgressBar) :
    (∀ e ∈ (ioCopyN m r (copyWriters quiet hs) n ⟨w, [], b⟩).1.trace, e.isTransfer = true) ∧
    (((bytesRead (ioCopyN m r (copyWriters quiet hs) n ⟨w, [], b⟩).1.trace).length : Int) < n →
      (ioCopyN m r (copyWriters quiet hs) n ⟨w, [], b⟩).2.2 ≠ none) ∧
    ((∀ e ∈ (ioCopyN m r (copyWriters quiet hs) n ⟨w, [], b⟩).1.trace, e.writeFailed = false) →
      n ≤ (bytesRead (ioCopyN m r (copyWriters quiet hs) n ⟨w, [], b⟩).1.trace).length →
      (ioCopyN m r (copyWriters quiet hs) n ⟨w, [], b⟩).2.2 = none ∧
      (bytesRead (ioCopyN m r (copyWriters quiet hs) n ⟨w, [], b⟩).1.trace).length = n.toNat ∧
      ∀ i, i < hs.length →
        bytesWritten i (ioCopyN m r (copyWriters quiet hs) n ⟨w, [], b⟩).1.trace =
          bytesRead (ioCopyN m r (copyWriters quiet hs) n ⟨w, [], b⟩).1.trace) := by
  rw [ioCopyN_env]
  obtain ⟨c1, c2, c3, c4⟩ := copyLoop_spec m r quiet hs (n.toNat + 1) n 0 w b
  refine ⟨c1, ?_, ?_⟩
  · intro hlt
    simp only [ioCopyN]
    split
    · rename_i heq
      omega
    · split
      · simp
      · rename_i h1 h2
        intro hnone
        exact h2 ⟨by omega, hnone⟩
  · intro hall hge
    obtain ⟨d1, d2⟩ := c4 hall
    by_cases hn : 0 ≤ n
    · have hlen : (bytesRead (copyLoop m r (copyWriters quiet hs) (n.toNat + 1) n 0
          ⟨w, [], b⟩).1.trace).length = n.toNat := by omega
      refine ⟨?_, hlen, d2⟩
      simp only [ioCopyN]
      rw [if_pos (by omega)]
    · have hnp : n ≤ 0 := by omega
      rw [copyLoop_nonpos m r _ _ n 0 _ hnp]
      refine ⟨?_, by simp [bytesRead]; omega, by simp [bytesRead, bytesWritten]⟩
      simp only [ioCopyN]
      rw [copyLoop_nonpos m r _ _ n 0 _ hnp]
      have h0 : ¬ (0 : Int) = n := by omega
      have h1 : ¬ ((0 : Int) < n) := by omega
      simp [h0, h1]

/-! ## Acquisition in general -/

theorem getTargetWritersLoop_general (m : clientManager σ) (md5Hex : String) (length : Int)
    (us : List parsedURL) (acc : List Handle) (env : Env σ) :
    ∃ t, (getTargetWritersLoop m md5Hex length us acc env).1.trace = env.trace ++ t ∧
      (getTargetWritersLoop m md5Hex length us acc env).1.bar = env.bar ∧
      readerCloseCalls t = [] ∧
      (∀ e ∈ t, e.isTransfer = false ∧ e.isBar = false) ∧
      (∀ c ∈ targetCalls t, c.2 = (md5Hex, length)) ∧
      (match (getTargetWritersLoop m md5Hex length us acc env).2 with
        | Except.ok hs => hs = acc ++ openedTargets t ∧ closeCalls t = []
        | Except.error _ => closeCalls t = acc ++ openedTargets t) := by
  induction us generalizing acc env with
  | nil =>
    exact ⟨[], by simp [getTargetWritersLoop, readerCloseCalls, targetCalls, openedTargets,
      closeCalls]⟩
  | cons u us ih =>
    simp only [getTargetWritersLoop]
    split
    · rename_i err herr
      obtain ⟨t, h1, h2, h3, h4⟩ := closeAll_spec m acc
        ⟨(m.getTargetWriter env.world u md5Hex length).1,
          env.trace ++ [Event.getTargetWriter u md5Hex length
            (m.getTargetWriter env.world u md5Hex length).2], env.bar⟩
      refine ⟨Event.getTargetWriter u md5Hex length
          (m.getTargetWriter env.world u md5Hex length).2 :: t, ?_, ?_, ?_, ?_, ?_, ?_⟩
      · rw [h1]; simp
      · rw [h2]
      · have := closes_readerCloseCalls t h4
        simp only [readerCloseCalls] at this ⊢
        simp [List.filterMap_cons, Event.readerClosed, this]
      · intro e he
        rcases List.mem_cons.1 he with rfl | he
        · exact ⟨rfl, rfl⟩
        · exact ⟨(closes_flags t h4 e he).1, (closes_flags t h4 e he).2.1⟩
      · have := closes_targetCalls t h4
        simp only [targetCalls] at this ⊢
        simp [List.filterMap_cons, Event.targetCall, this]
      · have ho := closes_openedTargets t h4
        simp only [openedTargets, closeCalls] at ho h3 ⊢
        simp [List.filterMap_cons, Event.openedTarget, Event.closed, herr, ho, h3]
    · rename_i wr hwr
      obtain ⟨t, h1, h2, h3, h4, h5, h6⟩ := ih (acc ++ [wr])
        ⟨(m.getTargetWriter env.world u md5Hex length).1,
          env.trace ++ [Event.getTargetWriter u md5Hex length
            (m.getTargetWriter env.world u md5Hex length).2], env.bar⟩
      refine ⟨Event.getTargetWriter u md5Hex length
          (m.getTargetWriter env.world u md5Hex length).2 :: t, ?_, ?_, ?_, ?_, ?_, ?_⟩
      · rw [h1]; simp
      · rw [h2]
      · simp only [readerCloseCalls] at h3 ⊢
        simp [List.filterMap_cons, Event.readerClosed, h3]
      · intro e he
        rcases List.mem_cons.1 he with rfl | he
        · exact ⟨rfl, rfl⟩
        · exact h4 e he
      · intro c hc
        simp only [targetCalls, List.filterMap_cons, Event.targetCall, List.mem_cons] at hc
        rcases hc with rfl | hc
        · rfl
        · exact h5 c hc
      · have hop : openedTargets (Event.getTargetWriter u md5Hex length
            (m.getTargetWriter env.world u md5Hex length).2 :: t) = wr :: openedTargets t := by
          simp [openedTargets, List.filterMap_cons, Event.openedTarget, hwr]
        have hcl : closeCalls (Event.getTargetWriter u md5Hex length
            (m.getTargetWriter env.world u md5Hex length).2 :: t) = closeCalls t := by
          simp [closeCalls, List.filterMap_cons, Event.closed]
        rw [hop, hcl]
        revert h6
        split
        · intro h6; simpa using h6
        · intro h6; simpa using h6

/-! ## The shape of a run of `doCopyCmd` -/

theorem setUpBar_trace (quiet : Bool) (length : Int) (env : Env σ) :
    setUpBar quiet length env =
      (Env.mk env.world [] (setUpBar quiet length env).bar).prepend
        (env.trace ++ if quiet then [] else [Event.barStart length]) := by
  cases quiet <;> simp [setUpBar, Env.prepend]

/-- A run in which the source was opened either fails in `getTargetWriters`, or
streams: its trace is the acquisition, the start of the bar unless quiet, the
transfer, one `Close` per target and the deferred `Close` of the reader. -/
theorem doCopyCmd_opened (m : clientManager σ) (quiet : Bool) (src : parsedURL)
    (tgts : List parsedURL) (s : σ) (reader : Handle) (length : Int) (md5 : String)
    (tw : Env σ × Except Error (List Handle))
    (hsrc : (m.getSourceReader s src).2 = SourceResult.opened reader length md5)
    (htw : tw = getTargetWriters m tgts md5 length
      ⟨(m.getSourceReader s src).1,
        [Event.getSourceReader src (SourceResult.opened reader length md5)], none⟩) :
    (∃ err rc, tw.2 = Except.error err ∧
      (doCopyCmd m quiet src tgts s).msg = "Unable to write to target" ∧
      (doCopyCmd m quiet src tgts s).err = some (Error.iodine err []) ∧
      (doCopyCmd m quiet src tgts s).copied = none ∧
      (doCopyCmd m quiet src tgts s).env.trace = tw.1.trace ++ [Event.readerClose reader rc]) ∨
    (∃ hs rc tcl cp, tw.2 = Except.ok hs ∧
      cp = ioCopyN m reader (copyWriters quiet hs) length
        ⟨tw.1.world, [], (setUpBar quiet length tw.1).bar⟩ ∧
      (doCopyCmd m quiet src tgts s).copied = some cp.2.2 ∧
      (doCopyCmd m quiet src tgts s).msg = (if cp.2.2 ≠ none then closeMessage else "") ∧
      (doCopyCmd m quiet src tgts s).err = iodineNew cp.2.2 [] ∧
      (doCopyCmd m quiet src tgts s).env.trace =
        tw.1.trace ++ (if quiet then [] else [Event.barStart length]) ++ cp.1.trace ++ tcl ++
          [Event.readerClose reader rc] ∧
      closeCalls tcl = hs ∧ ∀ e ∈ tcl, e.isClose = true) := by
  simp only [doCopyCmd, hsrc, ← htw]
  cases htw2 : tw.2 with
  | error err =>
    left
    exact ⟨err, (m.ReaderClose tw.1.world reader).2, rfl, rfl, rfl, rfl, rfl⟩
  | ok hs =>
    right
    have hkey : ioCopyN m reader (copyWriters quiet hs) length (setUpBar quiet length tw.1) =
        ((ioCopyN m reader (copyWriters quiet hs) length
            ⟨tw.1.world, [], (setUpBar quiet length tw.1).bar⟩).1.prepend
          (tw.1.trace ++ if quiet then [] else [Event.barStart length]),
         (ioCopyN m reader (copyWriters quiet hs) length
            ⟨tw.1.world, [], (setUpBar quiet length tw.1).bar⟩).2) := by
      conv_lhs => rw [setUpBar_trace quiet length tw.1]
      rw [ioCopyN_prepend]
    simp only [closeWriters_eq_closeAll, hkey]
    generalize hcp : ioCopyN m reader (copyWriters quiet hs) length
      ⟨tw.1.world, [], (setUpBar quiet length tw.1).bar⟩ = cp
    obtain ⟨tcl, c1, c2, c3, c4⟩ := closeAll_spec m hs
      (cp.1.prepend (tw.1.trace ++ if quiet then [] else [Event.barStart length]))
    refine ⟨hs, (m.ReaderClose (closeAll m hs
      (cp.1.prepend (tw.1.trace ++ if quiet then [] else [Event.barStart length]))).world
        reader).2, tcl, cp, rfl, hcp.symm, ?_⟩
    by_cases hne : cp.2.2 ≠ none
    · rw [if_pos hne, if_pos hne]
      refine ⟨rfl, rfl, rfl, ?_, c3, c4⟩
      simp only [deferredReaderClose, c1, Env.prepend_trace]
    · have hnone : cp.2.2 = none := by simpa using hne
      rw [if_neg hne, if_neg hne]
      refine ⟨rfl, rfl, ?_, ?_, c3, c4⟩
      · simp only [deferredReaderClose, hnone, iodineNew]
      · simp only [deferredReaderClose, c1, Env.prepend_trace]

/-- A run in which `getSourceReader` fails stops there. -/
theorem doCopyCmd_source_failed (m : clientManager σ) (quiet : Bool) (src : parsedURL)
    (tgts : List parsedURL) (s : σ) (e : Error)
    (hsrc : (m.getSourceReader s src).2 = SourceResult.failed e) :
    doCopyCmd m quiet src tgts s =
      ⟨"Unable to read from source", some (Error.iodine e []),
        ⟨(m.getSourceReader s src).1, [Event.getSourceReader src (SourceResult.failed e)], none⟩,
        none⟩ := by
  simp [doCopyCmd, hsrc, iodineNew]

/-! ## Claims -/

/-- C8. When `getSourceReader` returns an error, `doCopyCmd` returns the message
"Unable to read from source" with that error wrapped by `iodine.New`, and the
run consists of the `getSourceReader` call alone: no `getTargetWriter`, no read,
no write, no close, no progress bar, and the copy is never started. -/
theorem doCopyCmd_source_error (m : clientManager σ) (quiet : Bool) (src : parsedURL)
    (tgts : List parsedURL) (s : σ) (e : Error)
    (hsrc : (m.getSourceReader s src).2 = SourceResult.failed e) :
    (doCopyCmd m quiet src tgts s).msg = "Unable to read from source" ∧
    (doCopyCmd m quiet src tgts s).err = some (Error.iodine e []) ∧
    (doCopyCmd m quiet src tgts s).env.trace =
      [Event.getSourceReader src (SourceResult.failed e)] ∧
    (doCopyCmd m quiet src tgts s).env.world = (m.getSourceReader s src).1 ∧
    (doCopyCmd m quiet src tgts s).env.bar = none ∧
    (doCopyCmd m quiet src tgts s).copied = none := by
  simp [doCopyCmd, hsrc, iodineNew]

/-- Witness of C8: the source locator lies in the bucket the manager rejects. -/
theorem doCopyCmd_source_error_witness :
    ((demoManager 3 2 "bad" false).getSourceReader ⟨[7, 8, 9], 1⟩ (loc "bad")).2 =
        SourceResult.failed (Error.other "no such bucket") ∧
    (doCopyCmd (demoManager 3 2 "bad" false) false (loc "bad") [loc "d1"] ⟨[7, 8, 9], 1⟩).env.trace =
      [Event.getSourceReader (loc "bad") (SourceResult.failed (Error.other "no such bucket"))] :=
  ⟨by decide,
    (doCopyCmd_source_error (demoManager 3 2 "bad" false) false (loc "bad") [loc "d1"]
      ⟨[7, 8, 9], 1⟩ (Error.other "no such bucket") (by decide)).2.2.1⟩

/-- C9. For every manager, flag, locators and state, the pair returned by
`doCopyCmd` has a non-nil error exactly when its message is not empty, and
`runCopyCmd` therefore prints that message and never its fallback text. -/
theorem doCopyCmd_error_iff_message (m : clientManager σ) (quiet : Bool) (src : parsedURL)
    (tgts : List parsedURL) (s : σ) :
    ((doCopyCmd m quiet src tgts s).err ≠ none ↔ (doCopyCmd m quiet src tgts s).msg ≠ "") ∧
    runCopyCmdReport (doCopyCmd m quiet src tgts s).msg (doCopyCmd m quiet src tgts s).err =
      (if (doCopyCmd m quiet src tgts s).err = none then none
       else some ("mc: " ++ (doCopyCmd m quiet src tgts s).msg)) ∧
    runCopyCmdReport (doCopyCmd m quiet src tgts s).msg (doCopyCmd m quiet src tgts s).err ≠
      some ("mc: " ++ noErrorMessage) := by
  have key : ∀ (msg : String) (err : Option Error),
      (msg = "Unable to read from source" ∨ msg = "Unable to write to target" ∨
        msg = closeMessage) ∧ err ≠ none ∨ msg = "" ∧ err = none →
      (err ≠ none ↔ msg ≠ "") ∧
      runCopyCmdReport msg err = (if err = none then none else some ("mc: " ++ msg)) ∧
      runCopyCmdReport msg err ≠ some ("mc: " ++ noErrorMessage) := by
    intro msg err h
    rcases h with ⟨hm, he⟩ | ⟨hm, he⟩
    · obtain ⟨e, rfl⟩ : ∃ e, err = some e := by
        cases err with
        | none => exact absurd rfl he
        | some e => exact ⟨e, rfl⟩
      have hmsg : msg ≠ "" := by
        rcases hm with rfl | rfl | rfl <;> decide
      have hfb : "mc: " ++ msg ≠ "mc: " ++ noErrorMessage := by
        rcases hm with rfl | rfl | rfl <;> decide
      refine ⟨by simp [hmsg], by simp [runCopyCmdReport, iodineNew, hmsg], ?_⟩
      simp only [runCopyCmdReport, iodineNew, hmsg, if_false]
      simpa using hfb
    · subst hm; subst he
      refine ⟨by simp, by simp [runCopyCmdReport, iodineNew], by simp [runCopyCmdReport, iodineNew]⟩
  apply key
  cases hsrc : (m.getSourceReader s src).2 with
  | failed e =>
    rw [doCopyCmd_source_failed m quiet src tgts s e hsrc]
    left
    exact ⟨Or.inl rfl, by simp⟩
  | opened reader length md5 =>
    rcases doCopyCmd_opened m quiet src tgts s reader length md5 _ hsrc rfl with
      ⟨err, rc, _, h1, h2, _⟩ | ⟨hs, rc, tcl, cp, _, _, _, h1, h2, _⟩
    · left
      exact ⟨Or.inr (Or.inl h1), by rw [h2]; simp⟩
    · by_cases hne : cp.2.2 ≠ none
      · left
        rw [if_pos hne] at h1
        refine ⟨Or.inr (Or.inr h1), ?_⟩
        rw [h2]
        cases hc : cp.2.2 with
        | none => exact absurd hc hne
        | some x => simp [iodineNew]
      · right
        rw [if_neg hne] at h1
        have hnone : cp.2.2 = none := by simpa using hne
        exact ⟨h1, by rw [h2, hnone]; rfl⟩

/-- C3. In every run of `doCopyCmd` in which `getSourceReader` succeeds, when
the function returns the source reader has been closed exactly once, and the
`Close` calls on targets are exactly the handles `getTargetWriter` returned
during the run, each once and in acquisition order; this holds whether target
acquisition failed, the transfer failed or the copy succeeded. -/
theorem doCopyCmd_closes_every_handle_once (m : clientManager σ) (quiet : Bool)
    (src : parsedURL) (tgts : List parsedURL) (s : σ) (reader : Handle) (length : Int)
    (md5 : String)
    (hsrc : (m.getSourceReader s src).2 = SourceResult.opened reader length md5) :
    readerCloseCalls (doCopyCmd m quiet src tgts s).env.trace = [reader] ∧
    closeCalls (doCopyCmd m quiet src tgts s).env.trace =
      openedTargets (doCopyCmd m quiet src tgts s).env.trace := by
  obtain ⟨t, g1, _, g3, _, _, g6⟩ := getTargetWritersLoop_general m md5 length tgts []
    ⟨(m.getSourceReader s src).1,
      [Event.getSourceReader src (SourceResult.opened reader length md5)], none⟩
  rcases doCopyCmd_opened m quiet src tgts s reader length md5 _ hsrc rfl with
    ⟨err, rc, h0, _, _, _, htr⟩ | ⟨hs, rc, tcl, cp, h0, hcp, _, _, _, htr, hcl, hcl2⟩
  · simp only [getTargetWriters] at h0 htr
    rw [h0] at g6
    rw [htr, g1]
    simp only [readerCloseCalls, closeCalls, openedTargets] at g3 g6 ⊢
    simp [List.filterMap_append, List.filterMap_cons, Event.readerClosed, Event.closed,
      Event.openedTarget, g3, g6]
  · simp only [getTargetWriters] at h0 htr hcp
    rw [h0] at g6
    obtain ⟨g6a, g6b⟩ := g6
    have htc := (ioCopyN_spec m reader quiet hs length
      (getTargetWritersLoop m md5 length tgts []
        ⟨(m.getSourceReader s src).1,
          [Event.getSourceReader src (SourceResult.opened reader length md5)], none⟩).1.world
      (setUpBar quiet length (getTargetWritersLoop m md5 length tgts []
        ⟨(m.getSourceReader s src).1,
          [Event.getSourceReader src (SourceResult.opened reader length md5)], none⟩).1).bar).1
    rw [← hcp] at htc
    have k1 := transfers_closeCalls _ htc
    have k2 := transfers_openedTargets _ htc
    have k3 := transfers_readerCloseCalls _ htc
    have k4 := closes_openedTargets _ hcl2
    have k5 := closes_readerCloseCalls _ hcl2
    rw [htr, g1]
    simp only [readerCloseCalls, closeCalls, openedTargets] at g3 g6a g6b k1 k2 k3 k4 k5 hcl ⊢
    cases quiet <;>
      simp [List.filterMap_append, List.filterMap_cons, Event.readerClosed, Event.closed,
        Event.openedTarget, g3, g6b, k1, k2, k3, k4, k5, hcl, g6a]

/-- Witness of C3: a run whose second target acquisition fails. -/
theorem doCopyCmd_closes_every_handle_once_witness :
    ((demoManager 3 2 "bad" false).getSourceReader ⟨[7, 8, 9], 1⟩ (loc "src")).2 =
        SourceResult.opened 0 3 "abc123" ∧
    readerCloseCalls (doCopyCmd (demoManager 3 2 "bad" false) false (loc "src")
      [loc "d1", loc "bad", loc "d3"] ⟨[7, 8, 9], 1⟩).env.trace = [0] ∧
    closeCalls (doCopyCmd (demoManager 3 2 "bad" false) false (loc "src")
      [loc "d1", loc "bad", loc "d3"] ⟨[7, 8, 9], 1⟩).env.trace =
      openedTargets (doCopyCmd (demoManager 3 2 "bad" false) false (loc "src")
        [loc "d1", loc "bad", loc "d3"] ⟨[7, 8, 9], 1⟩).env.trace :=
  ⟨by decide,
    doCopyCmd_closes_every_handle_once (demoManager 3 2 "bad" false) false (loc "src")
      [loc "d1", loc "bad", loc "d3"] ⟨[7, 8, 9], 1⟩ 0 3 "abc123" (by decide)⟩

/-- C2. Let the destinations be `pre ++ u :: post` and let `getTargetWriter`
succeed for every locator of `pre`, returning the handles `hs`, and then fail
with `e` for `u`.  Then `doCopyCmd` returns "Unable to write to target" with the
error `e` wrapped with `failedURL = u.String()` and wrapped once more;
`getTargetWriter` was called for `pre` and `u` only, so for no locator of
`post`; the target `Close` calls are exactly `hs`, each once; nothing was read
from the source or written to a target; the copy was not started.  The manager
is arbitrary, so the result is the same whatever the cleanup `Close` calls
return. -/
theorem doCopyCmd_target_acquisition_fails (m : clientManager σ) (quiet : Bool)
    (src : parsedURL) (pre : List parsedURL) (u : parsedURL) (post : List parsedURL) (s : σ)
    (reader : Handle) (length : Int) (md5 : String) (s2 : σ) (hs : List Handle) (e : Error)
    (hsrc : (m.getSourceReader s src).2 = SourceResult.opened reader length md5)
    (hpre : opens m md5 length (m.getSourceReader s src).1 pre = some (s2, hs))
    (hfail : (m.getTargetWriter s2 u md5 length).2 = TargetResult.failed e) :
    (doCopyCmd m quiet src (pre ++ u :: post) s).msg = "Unable to write to target" ∧
    (doCopyCmd m quiet src (pre ++ u :: post) s).err =
      some (Error.iodine (Error.iodine e [("failedURL", u.String)]) []) ∧
    targetCalls (doCopyCmd m quiet src (pre ++ u :: post) s).env.trace =
      (pre ++ [u]).map (fun v => (v, md5, length)) ∧
    openedTargets (doCopyCmd m quiet src (pre ++ u :: post) s).env.trace = hs ∧
    closeCalls (doCopyCmd m quiet src (pre ++ u :: post) s).env.trace = hs ∧
    hs.length = pre.length ∧
    (∀ ev ∈ (doCopyCmd m quiet src (pre ++ u :: post) s).env.trace,
      ev.isTransfer = false ∧ ev.isBar = false) ∧
    (doCopyCmd m quiet src (pre ++ u :: post) s).copied = none := by
  have hlen := opens_length m md5 length pre _ s2 hs hpre
  have hgt := getTargetWritersLoop_fail m md5 length pre u post []
    ⟨(m.getSourceReader s src).1,
      [Event.getSourceReader src (SourceResult.opened reader length md5)], none⟩ s2 hs e
    hpre hfail
  rcases doCopyCmd_opened m quiet src (pre ++ u :: post) s reader length md5 _ hsrc rfl with
    ⟨err, rc, h0, h1, h2, h3, htr⟩ | ⟨hs2, rc, tcl, cp, h0, _⟩
  · simp only [getTargetWriters, hgt] at h0 htr
    obtain ⟨tcl, c1, _, c3, c4⟩ := closeAll_spec m ([] ++ hs)
      ⟨(m.getTargetWriter s2 u md5 length).1,
        [Event.getSourceReader src (SourceResult.opened reader length md5)] ++
          openEvents md5 length pre hs ++
          [Event.getTargetWriter u md5 length (TargetResult.failed e)], none⟩
    have herr : err = Error.iodine e [("failedURL", u.String)] := by
      injection h0 with h0; exact h0.symm
    have a1 := openEvents_acquire md5 length pre hs
    have a2 := openEvents_targetCalls md5 length pre hs hlen
    have a3 := openEvents_openedTargets md5 length pre hs hlen
    have a4 := acquires_closeCalls _ a1
    have b1 := closes_targetCalls _ c4
    have b2 := closes_openedTargets _ c4
    refine ⟨h1, by rw [h2, herr], ?_, ?_, ?_, hlen, ?_, h3⟩
    · rw [htr, c1]
      simp only [targetCalls] at a2 b1 ⊢
      simp [List.filterMap_append, List.filterMap_cons, Event.targetCall, a2, b1]
    · rw [htr, c1]
      simp only [openedTargets] at a3 b2 ⊢
      simp [List.filterMap_append, List.filterMap_cons, Event.openedTarget, a3, b2]
    · rw [htr, c1]
      simp only [closeCalls] at a4 c3 ⊢
      simp [List.filterMap_append, List.filterMap_cons, Event.closed, a4, c3]
    · intro ev hev
      rw [htr, c1] at hev
      dsimp only at hev
      rcases List.mem_append.1 hev with hev | hev
      · rcases List.mem_append.1 hev with hev | hev
        · rcases List.mem_append.1 hev with hev | hev
          · rcases List.mem_append.1 hev with hev | hev
            · rw [List.mem_singleton.1 hev]; exact ⟨rfl, rfl⟩
            · exact ⟨(acquires_flags _ a1 ev hev).1, (acquires_flags _ a1 ev hev).2.1⟩
          · rw [List.mem_singleton.1 hev]; exact ⟨rfl, rfl⟩
        · exact ⟨(closes_flags _ c4 ev hev).1, (closes_flags _ c4 ev hev).2.1⟩
      · rw [List.mem_singleton.1 hev]; exact ⟨rfl, rfl⟩
  · simp only [getTargetWriters, hgt] at h0
    cases h0

/-- Witness of C2: the second of three destinations is rejected and the
cleanup `Close` fails as well. -/
theorem doCopyCmd_target_acquisition_fails_witness :
    (doCopyCmd (demoManager 3 2 "bad" true) false (loc "src")
        ([loc "d1"] ++ loc "bad" :: [loc "d3"]) ⟨[7, 8, 9], 1⟩).msg =
      "Unable to write to target" ∧
    (doCopyCmd (demoManager 3 2 "bad" true) false (loc "src")
        ([loc "d1"] ++ loc "bad" :: [loc "d3"]) ⟨[7, 8, 9], 1⟩).err =
      some (Error.iodine
        (Error.iodine (Error.other "no such bucket") [("failedURL", "bad/obj")]) []) ∧
    closeCalls (doCopyCmd (demoManager 3 2 "bad" true) false (loc "src")
        ([loc "d1"] ++ loc "bad" :: [loc "d3"]) ⟨[7, 8, 9], 1⟩).env.trace = [1] := by
  have h := doCopyCmd_target_acquisition_fails (demoManager 3 2 "bad" true) false (loc "src")
    [loc "d1"] (loc "bad") [loc "d3"] ⟨[7, 8, 9], 1⟩ 0 3 "abc123" ⟨[7, 8, 9], 2⟩ [1]
    (Error.other "no such bucket") (by decide) (by decide) (by decide)
  exact ⟨h.1, h.2.1, h.2.2.2.2.1⟩

/-- C7. When `getTargetWriter` succeeds for every locator of the list in turn,
returning the handles `hs`, then `getTargetWriters` returns `hs` with a nil
error: one handle per locator, the `i`-th one being what the manager returned
for the `i`-th locator; the calls it made are one `getTargetWriter` per
locator, in order, each with the given hash and length; it closed nothing.
And `doCopyCmd` starts with the source acquisition followed by this call of
`getTargetWriters` on the hash and length `getSourceReader` returned, so that
every `getTargetWriter` call of the run carries exactly those two values. -/
theorem getTargetWriters_all_opened (m : clientManager σ) (tgts : List parsedURL)
    (md5 : String) (length : Int) (env : Env σ) (s2 : σ) (hs : List Handle)
    (hopen : opens m md5 length env.world tgts = some (s2, hs)) :
    getTargetWriters m tgts md5 length env =
      (⟨s2, env.trace ++ openEvents md5 length tgts hs, env.bar⟩, Except.ok hs) ∧
    hs.length = tgts.length ∧
    targetCalls (openEvents md5 length tgts hs) = tgts.map (fun u => (u, md5, length)) ∧
    openedTargets (openEvents md5 length tgts hs) = hs ∧
    closeCalls (openEvents md5 length tgts hs) = [] ∧
    (∀ (quiet : Bool) (src : parsedURL) (s : σ) (reader : Handle),
      (m.getSourceReader s src).2 = SourceResult.opened reader length md5 →
      (∃ rest, (doCopyCmd m quiet src tgts s).env.trace =
        (getTargetWriters m tgts md5 length
          ⟨(m.getSourceReader s src).1,
            [Event.getSourceReader src (SourceResult.opened reader length md5)],
            none⟩).1.trace ++ rest ∧
        targetCalls rest = []) ∧
      ∀ c ∈ targetCalls (doCopyCmd m quiet src tgts s).env.trace, c.2 = (md5, length)) := by
  have hlen := opens_length m md5 length tgts _ s2 hs hopen
  refine ⟨?_, hlen, openEvents_targetCalls md5 length tgts hs hlen,
    openEvents_openedTargets md5 length tgts hs hlen,
    acquires_closeCalls _ (openEvents_acquire md5 length tgts hs), ?_⟩
  · have := getTargetWritersLoop_ok m md5 length tgts [] env s2 hs hopen
    simpa [getTargetWriters] using this
  · intro quiet src s reader hsrc
    obtain ⟨t, g1, _, _, _, g5, _⟩ := getTargetWritersLoop_general m md5 length tgts []
      ⟨(m.getSourceReader s src).1,
        [Event.getSourceReader src (SourceResult.opened reader length md5)], none⟩
    have hrest : ∃ rest, (doCopyCmd m quiet src tgts s).env.trace =
        (getTargetWriters m tgts md5 length
          ⟨(m.getSourceReader s src).1,
            [Event.getSourceReader src (SourceResult.opened reader length md5)],
            none⟩).1.trace ++ rest ∧ targetCalls rest = [] := by
      rcases doCopyCmd_opened m quiet src tgts s reader length md5 _ hsrc rfl with
        ⟨err, rc, _, _, _, _, htr⟩ | ⟨hs2, rc, tcl, cp, _, hcp, _, _, _, htr, _, hcl2⟩
      · exact ⟨_, htr, rfl⟩
      · refine ⟨(if quiet then [] else [Event.barStart length]) ++ cp.1.trace ++ tcl ++
          [Event.readerClose reader rc], by rw [htr]; simp, ?_⟩
        have htc := (ioCopyN_spec m reader quiet hs2 length
          (getTargetWriters m tgts md5 length
            ⟨(m.getSourceReader s src).1,
              [Event.getSourceReader src (SourceResult.opened reader length md5)],
              none⟩).1.world
          (setUpBar quiet length (getTargetWriters m tgts md5 length
            ⟨(m.getSourceReader s src).1,
              [Event.getSourceReader src (SourceResult.opened reader length md5)],
              none⟩).1).bar).1
        rw [← hcp] at htc
        have k1 := transfers_targetCalls _ htc
        have k2 := closes_targetCalls _ hcl2
        simp only [targetCalls] at k1 k2 ⊢
        cases quiet <;>
          simp [List.filterMap_append, List.filterMap_cons, Event.targetCall, k1, k2]
    refine ⟨hrest, ?_⟩
    obtain ⟨rest, hr1, hr2⟩ := hrest
    intro c hc
    rw [hr1] at hc
    simp only [getTargetWriters] at hc
    rw [g1] at hc
    simp only [targetCalls] at hr2 hc g5
    simp only [List.filterMap_append, hr2, List.append_nil, List.filterMap_cons,
      Event.targetCall, List.filterMap_nil, List.nil_append] at hc
    exact g5 c hc

/-- Witness of C7: two destinations, both accepted. -/
theorem getTargetWriters_all_opened_witness :
    getTargetWriters (demoManager 3 2 "bad" false) [loc "d1", loc "d2"] "abc123" 3
        ⟨⟨[7, 8, 9], 1⟩, [], none⟩ =
      (⟨⟨[7, 8, 9], 3⟩,
        [] ++ openEvents "abc123" 3 [loc "d1", loc "d2"] [1, 2], none⟩, Except.ok [1, 2]) :=
  (getTargetWriters_all_opened (demoManager 3 2 "bad" false) [loc "d1", loc "d2"] "abc123" 3
    ⟨⟨[7, 8, 9], 1⟩, [], none⟩ ⟨[7, 8, 9], 3⟩ [1, 2] (by decide)).1

/-- A run in which the source and every target were opened: the outcome in
terms of the call of `io.CopyN`. -/
theorem doCopyCmd_streams (m : clientManager σ) (quiet : Bool) (src : parsedURL)
    (tgts : List parsedURL) (s : σ) (reader : Handle) (length : Int) (md5 : String) (s2 : σ)
    (hs : List Handle)
    (hsrc : (m.getSourceReader s src).2 = SourceResult.opened reader length md5)
    (htgt : opens m md5 length (m.getSourceReader s src).1 tgts = some (s2, hs)) :
    ∃ b tcl rc cp, cp = ioCopyN m reader (copyWriters quiet hs) length ⟨s2, [], b⟩ ∧
      (doCopyCmd m quiet src tgts s).copied = some cp.2.2 ∧
      (doCopyCmd m quiet src tgts s).msg = (if cp.2.2 ≠ none then closeMessage else "") ∧
      (doCopyCmd m quiet src tgts s).err = iodineNew cp.2.2 [] ∧
      (doCopyCmd m quiet src tgts s).env.trace =
        [Event.getSourceReader src (SourceResult.opened reader length md5)] ++
          openEvents md5 length tgts hs ++ (if quiet then [] else [Event.barStart length]) ++
          cp.1.trace ++ tcl ++ [Event.readerClose reader rc] ∧
      closeCalls tcl = hs ∧ (∀ e ∈ tcl, e.isClose = true) ∧
      bytesRead (doCopyCmd m quiet src tgts s).env.trace = bytesRead cp.1.trace ∧
      (∀ i, bytesWritten i (doCopyCmd m quiet src tgts s).env.trace =
        bytesWritten i cp.1.trace) ∧
      closeCalls (doCopyCmd m quiet src tgts s).env.trace = hs ∧
      openedTargets (doCopyCmd m quiet src tgts s).env.trace = hs ∧
      (∀ e ∈ cp.1.trace, e ∈ (doCopyCmd m quiet src tgts s).env.trace) := by
  have hlen := opens_length m md5 length tgts _ s2 hs htgt
  have hgt := getTargetWritersLoop_ok m md5 length tgts []
    ⟨(m.getSourceReader s src).1,
      [Event.getSourceReader src (SourceResult.opened reader length md5)], none⟩ s2 hs htgt
  rcases doCopyCmd_opened m quiet src tgts s reader length md5 _ hsrc rfl with
    ⟨err, rc, h0, _⟩ | ⟨hs2, rc, tcl, cp, h0, hcp, h1, h2, h3, htr, hcl, hcl2⟩
  · simp only [getTargetWriters, hgt] at h0
    cases h0
  · simp only [getTargetWriters, hgt] at h0 hcp htr
    have hhs : hs2 = hs := by
      injection h0 with h0
      simpa using h0.symm
    subst hhs
    have htc := (ioCopyN_spec m reader quiet hs2 length s2
      (setUpBar quiet length
        ⟨s2, [Event.getSourceReader src (SourceResult.opened reader length md5)] ++
          openEvents md5 length tgts hs2, none⟩).bar).1
    rw [← hcp] at htc
    have a1 := openEvents_acquire md5 length tgts hs2
    have a3 := openEvents_openedTargets md5 length tgts hs2 hlen
    have a4 := acquires_closeCalls _ a1
    have a5 := acquires_bytesRead _ a1
    have a6 := fun i => acquires_bytesWritten i _ a1
    have b2 := closes_openedTargets _ hcl2
    have b3 := closes_bytesRead _ hcl2
    have b4 := fun i => closes_bytesWritten i _ hcl2
    have k1 := transfers_closeCalls _ htc
    have k2 := transfers_openedTargets _ htc
    refine ⟨_, tcl, rc, cp, hcp, h1, h2, h3, htr, hcl, hcl2, ?_, ?_, ?_, ?_, ?_⟩
    · rw [htr]
      simp only [bytesRead_append, a5, b3]
      cases quiet <;> simp [bytesRead, Event.dataRead]
    · intro i
      rw [htr]
      simp only [bytesWritten_append, a6 i, b4 i]
      cases quiet <;> simp [bytesWritten, Event.dataWritten]
    · rw [htr]
      simp only [closeCalls] at a4 k1 hcl ⊢
      cases quiet <;>
        simp [List.filterMap_append, List.filterMap_cons, Event.closed, a4, k1, hcl]
    · rw [htr]
      simp only [openedTargets] at a3 k2 b2 ⊢
      cases quiet <;>
        simp [List.filterMap_append, List.filterMap_cons, Event.openedTarget, a3, k2, b2]
    · intro e he
      rw [htr]
      simp [he]

/-- C4. Let `getSourceReader` succeed with a declared `length` and let
`getTargetWriter` succeed for every destination.  If in the run the reader
delivered fewer than `length` bytes (it reached `EOF` early, or the transfer
stopped for another reason), then `doCopyCmd` returns a non-nil error with a
non-empty message, and every target handle has been closed, once each. -/
theorem doCopyCmd_short_source_fails (m : clientManager σ) (quiet : Bool) (src : parsedURL)
    (tgts : List parsedURL) (s : σ) (reader : Handle) (length : Int) (md5 : String) (s2 : σ)
    (hs : List Handle)
    (hsrc : (m.getSourceReader s src).2 = SourceResult.opened reader length md5)
    (htgt : opens m md5 length (m.getSourceReader s src).1 tgts = some (s2, hs))
    (hshort : ((bytesRead (doCopyCmd m quiet src tgts s).env.trace).length : Int) < length) :
    (doCopyCmd m quiet src tgts s).err ≠ none ∧
    (doCopyCmd m quiet src tgts s).msg ≠ "" ∧
    (doCopyCmd m quiet src tgts s).copied ≠ some none ∧
    openedTargets (doCopyCmd m quiet src tgts s).env.trace = hs ∧
    closeCalls (doCopyCmd m quiet src tgts s).env.trace = hs ∧
    hs.length = tgts.length := by
  have hlen := opens_length m md5 length tgts _ s2 hs htgt
  obtain ⟨b, tcl, rc, cp, hcp, h1, h2, h3, _, _, _, hbr, _, hcl, hop, _⟩ :=
    doCopyCmd_streams m quiet src tgts s reader length md5 s2 hs hsrc htgt
  obtain ⟨_, c2, _⟩ := ioCopyN_spec m reader quiet hs length s2 b
  rw [← hcp] at c2
  rw [hbr] at hshort
  have hne := c2 hshort
  obtain ⟨x, hx⟩ : ∃ x, cp.2.2 = some x := by
    cases hc : cp.2.2 with
    | none => exact absurd hc hne
    | some x => exact ⟨x, rfl⟩
  refine ⟨?_, ?_, ?_, hop, hcl, hlen⟩
  · rw [h3, hx]; simp [iodineNew]
  · rw [h2, if_pos hne]; decide
  · rw [h1, hx]; simp

/-- Witness of C4: five bytes declared, three delivered before `EOF`. -/
theorem doCopyCmd_short_source_fails_witness :
    (∃ e ∈ (doCopyCmd (demoManager 5 2 "bad" false) true (loc "src") [loc "d1"]
        ⟨[7, 8, 9], 1⟩).env.trace, e.readEOF = true) ∧
    (doCopyCmd (demoManager 5 2 "bad" false) true (loc "src") [loc "d1"]
        ⟨[7, 8, 9], 1⟩).err ≠ none ∧
    closeCalls (doCopyCmd (demoManager 5 2 "bad" false) true (loc "src") [loc "d1"]
        ⟨[7, 8, 9], 1⟩).env.trace = [1] := by
  have h := doCopyCmd_short_source_fails (demoManager 5 2 "bad" false) true (loc "src")
    [loc "d1"] ⟨[7, 8, 9], 1⟩ 0 5 "abc123" ⟨[7, 8, 9], 2⟩ [1]
    (by decide) (by decide) (by decide)
  exact ⟨by decide, h.1, h.2.2.2.2.1⟩

/-- C5, evaluated on the code: source and both targets are opened, the three
bytes are copied (`io.CopyN` returns nil), `Close` fails on both targets, and
`doCopyCmd` returns `("", nil)`. -/
theorem doCopyCmd_drops_close_error :
    (doCopyCmd (demoManager 3 2 "bad" true) true (loc "src") [loc "d1", loc "d2"]
        ⟨[7, 8, 9], 1⟩).copied = some none ∧
    (doCopyCmd (demoManager 3 2 "bad" true) true (loc "src") [loc "d1", loc "d2"]
        ⟨[7, 8, 9], 1⟩).env.trace.filter Event.isClose =
      [Event.close 1 (some (Error.other "close failed")),
        Event.close 2 (some (Error.other "close failed"))] ∧
    (doCopyCmd (demoManager 3 2 "bad" true) true (loc "src") [loc "d1", loc "d2"]
        ⟨[7, 8, 9], 1⟩).msg = "" ∧
    (doCopyCmd (demoManager 3 2 "bad" true) true (loc "src") [loc "d1", loc "d2"]
        ⟨[7, 8, 9], 1⟩).err = none := by
  decide

/-! ## Quiet and non-quiet runs -/

theorem writerWrite_quiet (m : clientManager σ) (i : Nat) (h : Handle) (p : List Byte)
    (q l : Env σ) (hq : Quietens q l) :
    Quietens (writerWrite m i (Writer.target h) p q).1 (writerWrite m i (Writer.target h) p l).1 ∧
    (writerWrite m i (Writer.target h) p q).2 = (writerWrite m i (Writer.target h) p l).2 := by
  obtain ⟨h1, h2, h3⟩ := hq
  simp [writerWrite, Quietens, h1, h2, h3, List.filter_append, Event.isBar]

theorem multiWriterWrite_quiet (m : clientManager σ) (p : List Byte) (hs : List Handle)
    (i : Nat) (q l : Env σ) (hq : Quietens q l) :
    Quietens (multiWriterWrite m p (copyWriters true hs) i q).1
      (multiWriterWrite m p (copyWriters false hs) i l).1 ∧
    (multiWriterWrite m p (copyWriters true hs) i q).2 =
      (multiWriterWrite m p (copyWriters false hs) i l).2 := by
  induction hs generalizing i q l with
  | nil =>
    obtain ⟨h1, h2, h3⟩ := hq
    simp [copyWriters, multiWriterWrite, writerWrite, Quietens, h1, h2, h3,
      List.filter_append, Event.isBar]
  | cons h hs ih =>
    have hcw : ∀ b, copyWriters b (h :: hs) = Writer.target h :: copyWriters b hs := by
      intro b; simp [copyWriters]
    obtain ⟨w1, w2⟩ := writerWrite_quiet m i h p q l hq
    rw [hcw, hcw]
    simp only [multiWriterWrite]
    rw [← w2]
    split
    · exact ⟨w1, rfl⟩
    · split
      · exact ⟨w1, rfl⟩
      · exact ih (i + 1) _ _ w1

theorem readerRead_quiet (m : clientManager σ) (r : Handle) (n : Nat)
    (q l : Env σ) (hq : Quietens q l) :
    Quietens (readerRead m r n q).1 (readerRead m r n l).1 ∧
    (readerRead m r n q).2 = (readerRead m r n l).2 := by
  obtain ⟨h1, h2, h3⟩ := hq
  simp [readerRead, Quietens, h1, h2, h3, List.filter_append, Event.isBar]

theorem copyLoop_quiet (m : clientManager σ) (r : Handle) (hs : List Handle) (fuel : Nat)
    (N written : Int) (q l : Env σ) (hq : Quietens q l) :
    Quietens (copyLoop m r (copyWriters true hs) fuel N written q).1
      (copyLoop m r (copyWriters false hs) fuel N written l).1 ∧
    (copyLoop m r (copyWriters true hs) fuel N written q).2 =
      (copyLoop m r (copyWriters false hs) fuel N written l).2 := by
  induction fuel generalizing N written q l with
  | zero => exact ⟨hq, rfl⟩
  | succ fuel ih =>
    simp only [copyLoop]
    split
    · exact ⟨hq, rfl⟩
    · obtain ⟨r1, r2⟩ := readerRead_quiet m r (min copyBufSize N.toNat) q l hq
      obtain ⟨w1, w2⟩ := multiWriterWrite_quiet m (readerRead m r (min copyBufSize N.toNat) q).2.1
        hs 0 _ _ r1
      rw [← r2]
      split
      · rw [← w2]
        split
        · exact ⟨w1, rfl⟩
        · split
          · exact ⟨w1, rfl⟩
          · split
            · exact ⟨w1, rfl⟩
            · exact ⟨w1, rfl⟩
            · exact ih _ _ _ _ w1
      · split
        · exact ⟨r1, rfl⟩
        · exact ⟨r1, rfl⟩
        · exact ih _ _ _ _ r1

theorem ioCopyN_quiet (m : clientManager σ) (r : Handle) (hs : List Handle)
    (n : Int) (q l : Env σ) (hq : Quietens q l) :
    Quietens (ioCopyN m r (copyWriters true hs) n q).1 (ioCopyN m r (copyWriters false hs) n l).1 ∧
    (ioCopyN m r (copyWriters true hs) n q).2 = (ioCopyN m r (copyWriters false hs) n l).2 := by
  obtain ⟨c1, c2⟩ := copyLoop_quiet m r hs (n.toNat + 1) n 0 q l hq
  simp only [ioCopyN]
  rw [← c2]
  split
  · exact ⟨c1, rfl⟩
  · split
    · exact ⟨c1, rfl⟩
    · exact ⟨c1, c2⟩

theorem closeAll_quiet (m : clientManager σ) (hs : List Handle) (q l : Env σ)
    (hq : Quietens q l) : Quietens (closeAll m hs q) (closeAll m hs l) := by
  induction hs generalizing q l with
  | nil => exact hq
  | cons h hs ih =>
    simp only [closeAll]
    apply ih
    obtain ⟨h1, h2, h3⟩ := hq
    simp [Quietens, h1, h2, h3, List.filter_append, Event.isBar]

theorem filterMap_filter_bar {β : Type} (f : Event → Option β)
    (hf : ∀ e, e.isBar = true → f e = none) (t : List Event) :
    (t.filter (fun e => !e.isBar)).filterMap f = t.filterMap f := by
  induction t with
  | nil => rfl
  | cons e t ih =>
    by_cases hb : e.isBar = true
    · rw [List.filter_cons_of_neg (by simp [hb]), List.filterMap_cons, hf e hb]
      exact ih
    · rw [List.filter_cons_of_pos (by simp [hb]), List.filterMap_cons, List.filterMap_cons, ih]

theorem bytesWritten_filter (i : Nat) (t : List Event) :
    bytesWritten i (t.filter (fun e => !e.isBar)) = bytesWritten i t := by
  simp only [bytesWritten]
  rw [filterMap_filter_bar _ (fun e he => by
    cases e <;> simp_all [Event.isBar, Event.dataWritten])]

theorem closeCalls_filter (t : List Event) :
    closeCalls (t.filter (fun e => !e.isBar)) = closeCalls t := by
  simp only [closeCalls]
  rw [filterMap_filter_bar _ (fun e he => by
    cases e <;> simp_all [Event.isBar, Event.closed])]

theorem deferredReaderClose_quiet (m : clientManager σ) (reader : Handle) (a b : Outcome σ)
    (h : QuietOutcome a b) :
    QuietOutcome (deferredReaderClose m reader a) (deferredReaderClose m reader b) := by
  obtain ⟨⟨h1, h2, h3⟩, h4, h5, h6⟩ := h
  simp [QuietOutcome, deferredReaderClose, Quietens, h1, h2, h3, h4, h5, h6,
    List.filter_append, Event.isBar]

theorem doCopyCmd_quiet (m : clientManager σ) (src : parsedURL) (tgts : List parsedURL)
    (s : σ) : QuietOutcome (doCopyCmd m true src tgts s) (doCopyCmd m false src tgts s) := by
  simp only [doCopyCmd]
  cases hsrc : (m.getSourceReader s src).2 with
  | failed e =>
    simp [QuietOutcome, Quietens, Event.isBar]
  | opened reader length md5 =>
    simp only []
    apply deferredReaderClose_quiet
    obtain ⟨t, g1, g2, _, g4, _, _⟩ := getTargetWritersLoop_general m md5 length tgts []
      ⟨(m.getSourceReader s src).1,
        [Event.getSourceReader src (SourceResult.opened reader length md5)], none⟩
    have hq0 : Quietens
        (getTargetWriters m tgts md5 length
          ⟨(m.getSourceReader s src).1,
            [Event.getSourceReader src (SourceResult.opened reader length md5)], none⟩).1
        (getTargetWriters m tgts md5 length
          ⟨(m.getSourceReader s src).1,
            [Event.getSourceReader src (SourceResult.opened reader length md5)], none⟩).1 := by
      refine ⟨rfl, ?_, ?_⟩
      · simp only [getTargetWriters]
        rw [g1]
        have : t.filter (fun e => !e.isBar) = t :=
          List.filter_eq_self.2 (fun e he => by simp [(g4 e he).2])
        dsimp only
        rw [List.filter_append, this]
        rfl
      · simp only [getTargetWriters]
        rw [g2]
    generalize getTargetWriters m tgts md5 length
      ⟨(m.getSourceReader s src).1,
        [Event.getSourceReader src (SourceResult.opened reader length md5)], none⟩ = tw at hq0
    cases htw : tw.2 with
    | error err =>
      exact ⟨hq0, rfl, rfl, rfl⟩
    | ok hs =>
      simp only [closeWriters_eq_closeAll]
      have hq1 : Quietens (setUpBar true length tw.1) (setUpBar false length tw.1) := by
        obtain ⟨h1, h2, h3⟩ := hq0
        refine ⟨rfl, ?_, h3⟩
        simp only [setUpBar, if_true, Bool.false_eq_true, if_false]
        rw [List.filter_append, ← h2]
        simp [Event.isBar]
      obtain ⟨c1, c2⟩ := ioCopyN_quiet m reader hs length _ _ hq1
      have c3 := closeAll_quiet m hs _ _ c1
      rw [← c2]
      split
      · exact ⟨c3, rfl, rfl, rfl⟩
      · exact ⟨c3, rfl, rfl, rfl⟩

/-! ## The bound on the rounds of the copy loop is never reached -/

/-- Any two bounds above `N` give the same run of the copy loop: a round that
continues has read at least one byte, so the loop started with limit `N` ends
within `N.toNat + 1` rounds, and the branch for an exhausted bound is not
taken by `io.CopyN`. -/
theorem copyLoop_fuel (m : clientManager σ) (r : Handle) (ws : List Writer)
    (fuel1 fuel2 : Nat) (N written : Int) (env : Env σ)
    (h1 : N.toNat < fuel1) (h2 : N.toNat < fuel2) :
    copyLoop m r ws fuel1 N written env = copyLoop m r ws fuel2 N written env := by
  induction fuel1 generalizing fuel2 N written env with
  | zero => omega
  | succ f1 ih =>
    cases fuel2 with
    | zero => omega
    | succ f2 =>
      simp only [copyLoop]
      split
      · rfl
      · rename_i hN
        have hpos : 0 < min copyBufSize N.toNat := by
          simp only [copyBufSize]; omega
        have hprog := m.read_progress env.world r (min copyBufSize N.toNat) hpos
        split
        · rename_i hnr
          split
          · rfl
          · split
            · rfl
            · split
              · rfl
              · rfl
              · exact ih f2 _ _ _ (by omega) (by omega)
        · rename_i hnr
          split
          · rfl
          · rfl
          · rename_i hnone
            have hdata : (m.Read env.world r (min copyBufSize N.toNat)).2.1 = [] := by
              cases hd : (m.Read env.world r (min copyBufSize N.toNat)).2.1 with
              | nil => rfl
              | cons a l =>
                simp only [readerRead, hd, List.length_cons] at hnr
                omega
            exact absurd hnone (hprog hdata)

/-! ## One round of the copy loop -/

/-- The four ways a round of the copy loop with `0 < N` can go, started on an
empty trace: the read returns no bytes and an error; a write fails or is
short; the writes succeed and the read came with an error; or the writes
succeed, the read had no error, and the loop goes on.  (A read of no bytes
without an error is excluded by `read_progress`.) -/
theorem copyLoop_round (m : clientManager σ) (r : Handle) (ws : List Writer) (fuel : Nat)
    (N written : Int) (w : σ) (b : Option ProgressBar) (hN : 0 < N)
    (rr : σ × List Byte × Option Error) (mw : Env σ × Nat × Option Error)
    (hrr : rr = m.Read w r (min copyBufSize N.toNat))
    (hmw : mw = multiWriterWrite m rr.2.1 ws 0 ⟨rr.1, [], b⟩) :
    (rr.2.1 = [] ∧ rr.2.2 ≠ none ∧
      ∃ err, copyLoop m r ws (fuel + 1) N written ⟨w, [], b⟩ =
        (⟨rr.1, [Event.read r (min copyBufSize N.toNat) rr.2.1 rr.2.2], b⟩, written, err)) ∨
    (rr.2.1 ≠ [] ∧ (mw.2.2 ≠ none ∨ mw.2.1 ≠ rr.2.1.length) ∧
      ∃ e, copyLoop m r ws (fuel + 1) N written ⟨w, [], b⟩ =
        (mw.1.prepend [Event.read r (min copyBufSize N.toNat) rr.2.1 rr.2.2],
          (if 0 < mw.2.1 then written + mw.2.1 else written), some e)) ∨
    (rr.2.1 ≠ [] ∧ mw.2 = (rr.2.1.length, none) ∧ rr.2.2 ≠ none ∧
      ∃ err, copyLoop m r ws (fuel + 1) N written ⟨w, [], b⟩ =
        (mw.1.prepend [Event.read r (min copyBufSize N.toNat) rr.2.1 rr.2.2],
          written + rr.2.1.length, err)) ∨
    (rr.2.1 ≠ [] ∧ mw.2 = (rr.2.1.length, none) ∧ rr.2.2 = none ∧
      copyLoop m r ws (fuel + 1) N written ⟨w, [], b⟩ =
        ((copyLoop m r ws fuel (N - rr.2.1.length) (written + rr.2.1.length)
            ⟨mw.1.world, [], mw.1.bar⟩).1.prepend
          (Event.read r (min copyBufSize N.toNat) rr.2.1 rr.2.2 :: mw.1.trace),
         (copyLoop m r ws fuel (N - rr.2.1.length) (written + rr.2.1.length)
            ⟨mw.1.world, [], mw.1.bar⟩).2)) := by
  have hNle : ¬ N ≤ 0 := by omega
  have hpos : 0 < min copyBufSize N.toNat := by
    simp only [copyBufSize]; omega
  have hprog := m.read_progress w r (min copyBufSize N.toNat) hpos
  rw [← hrr] at hprog
  have hpre := multiWriterWrite_prepend m rr.2.1 ws 0
    [Event.read r (min copyBufSize N.toNat) rr.2.1 rr.2.2] ⟨rr.1, [], b⟩
  simp only [Env.prepend, List.append_nil] at hpre
  rw [← hmw] at hpre
  simp only [copyLoop, hNle, if_false, readerRead, List.nil_append, ← hrr, hpre]
  by_cases hnr : 0 < rr.2.1.length
  · have hne : rr.2.1 ≠ [] := by
      intro h; rw [h] at hnr; simp at hnr
    rw [if_pos hnr]
    right
    cases hew : mw.2.2 with
    | some ew =>
      left
      refine ⟨hne, Or.inl (by simp), ew, ?_⟩
      simp [Env.prepend]
    | none =>
      simp only []
      by_cases hcnt : rr.2.1.length ≠ mw.2.1
      · left
        refine ⟨hne, Or.inr (fun h => hcnt h.symm), Error.ErrShortWrite, ?_⟩
        rw [if_pos hcnt]
        simp [Env.prepend]
      · right
        have hcnt2 : mw.2.1 = rr.2.1.length := by
          have := not_not.1 hcnt; exact this.symm
        have hmw2 : mw.2 = (rr.2.1.length, none) := by
          rw [← hcnt2, ← hew]
        have hw1 : (if 0 < mw.2.1 then written + (mw.2.1 : Int) else written) =
            written + rr.2.1.length := by
          rw [hcnt2, if_pos hnr]
        rw [if_neg hcnt, hw1]
        cases her : rr.2.2 with
        | none =>
          right
          refine ⟨hne, hmw2, rfl, ?_⟩
          simp only []
          have hfr := copyLoop_prepend m r ws fuel (N - rr.2.1.length)
            (written + rr.2.1.length)
            (Event.read r (min copyBufSize N.toNat) rr.2.1 none :: mw.1.trace)
            ⟨mw.1.world, [], mw.1.bar⟩
          simp only [Env.prepend, List.append_nil] at hfr
          simp only [List.singleton_append, hfr, Env.prepend, List.append_nil]
        | some e =>
          left
          refine ⟨hne, hmw2, by simp, ?_⟩
          cases e <;> exact ⟨_, rfl⟩
  · have hnil : rr.2.1 = [] := by
      cases hd : rr.2.1 with
      | nil => rfl
      | cons a l => rw [hd] at hnr; simp at hnr
    have herr := hprog hnil
    rw [if_neg hnr]
    left
    refine ⟨hnil, herr, ?_⟩
    cases her : rr.2.2 with
    | none => exact absurd her herr
    | some e => cases e <;> exact ⟨_, rfl⟩

/-! ## A reader that delivers and writers that accept -/

theorem multiWriterWrite_full (m : clientManager σ) (content : σ → List Byte)
    (hw : WritesSucceed m) (hk : ∀ s h p, content (m.Write s h p).1 = content s)
    (p : List Byte) (ws : List Writer) (i : Nat) (env : Env σ) :
    (multiWriterWrite m p ws i env).2 = (p.length, none) ∧
    content (multiWriterWrite m p ws i env).1.world = content env.world := by
  induction ws generalizing i env with
  | nil => exact ⟨rfl, rfl⟩
  | cons w ws ih =>
    have hww : (writerWrite m i w p env).2 = (p.length, none) ∧
        content (writerWrite m i w p env).1.world = content env.world := by
      cases w with
      | target h => exact ⟨hw env.world h p, hk env.world h p⟩
      | bar => exact ⟨rfl, rfl⟩
    simp only [multiWriterWrite, hww.1, ne_eq, not_true_eq_false, if_false]
    obtain ⟨a1, a2⟩ := ih (i + 1) (writerWrite m i w p env).1
    exact ⟨a1, by rw [a2, hww.2]⟩

theorem multiWriterWrite_accepts (m : clientManager σ) (hw : WritesSucceed m)
    (p : List Byte) (ws : List Writer) (i : Nat) (w : σ) (b : Option ProgressBar) :
    ∀ e ∈ (multiWriterWrite m p ws i ⟨w, [], b⟩).1.trace, e.writeFailed = false := by
  induction ws generalizing i w b with
  | nil => intro e he; simp [multiWriterWrite] at he
  | cons x ws ih =>
    have hev : ∃ ev w1 b1, writerWrite m i x p ⟨w, [], b⟩ = (⟨w1, [ev], b1⟩, p.length, none) ∧
        ev.writeFailed = false := by
      cases x with
      | target h =>
        refine ⟨Event.write i h p p.length none, (m.Write w h p).1, b, ?_, by
          simp [Event.writeFailed]⟩
        have := hw w h p
        simp only [writerWrite, List.nil_append]
        rw [show (m.Write w h p).2.1 = p.length by rw [this],
          show (m.Write w h p).2.2 = none by rw [this]]
      | bar => exact ⟨Event.barWrite p, w, _, rfl, rfl⟩
    obtain ⟨ev, w1, b1, h1, h2⟩ := hev
    simp only [multiWriterWrite, h1, ne_eq, not_true_eq_false, if_false]
    have hfr := multiWriterWrite_prepend m p ws (i + 1) [ev] ⟨w1, [], b1⟩
    simp only [Env.prepend, List.append_nil] at hfr
    rw [hfr]
    intro e he
    simp only [List.mem_append, List.mem_singleton] at he
    rcases he with rfl | he
    · exact h2
    · exact ih (i + 1) w1 b1 e he

theorem multiWriterWrite_on (m : clientManager σ) (p : List Byte) (quiet : Bool)
    (done todo : List Handle) (w : σ) (b : Option ProgressBar) :
    ∀ e ∈ (multiWriterWrite m p (copyWriters quiet todo) done.length ⟨w, [], b⟩).1.trace,
      e.writesOn (done ++ todo) := by
  induction todo generalizing done w b with
  | nil =>
    cases quiet with
    | true => intro e he; simp [copyWriters, multiWriterWrite] at he
    | false =>
      intro e he
      simp [copyWriters, multiWriterWrite, writerWrite] at he
      rw [he]
      trivial
  | cons h todo ih =>
    have hcw : copyWriters quiet (h :: todo) = Writer.target h :: copyWriters quiet todo := by
      simp [copyWriters]
    have hon : (Event.write done.length h p (m.Write w h p).2.1 (m.Write w h p).2.2).writesOn
        (done ++ h :: todo) := by
      show (done ++ h :: todo)[done.length]? = some h
      rw [List.getElem?_append_right (le_refl _)]
      simp
    rw [hcw]
    simp only [multiWriterWrite, writerWrite, List.nil_append]
    split
    · intro e he
      simp only [List.mem_singleton] at he
      rw [he]; exact hon
    · split
      · intro e he
        simp only [List.mem_singleton] at he
        rw [he]; exact hon
      · have hfr := multiWriterWrite_prepend m p (copyWriters quiet todo) (done.length + 1)
          [Event.write done.length h p (m.Write w h p).2.1 (m.Write w h p).2.2]
          ⟨(m.Write w h p).1, [], b⟩
        simp only [Env.prepend, List.append_nil] at hfr
        rw [hfr]
        intro e he
        simp only [List.mem_append, List.mem_singleton] at he
        rcases he with rfl | he
        · exact hon
        · have := ih (done ++ [h]) (m.Write w h p).1 b e (by simpa using he)
          simpa using this

/-- Whatever holds of every read event and of every event of a write of the
multi-writer holds of every event of the copy loop. -/
theorem copyLoop_events (m : clientManager σ) (r : Handle) (ws : List Writer)
    (P : Event → Prop) (hread : ∀ n d e, P (Event.read r n d e))
    (hmw : ∀ p w b, ∀ e ∈ (multiWriterWrite m p ws 0 ⟨w, [], b⟩).1.trace, P e)
    (fuel : Nat) (N written : Int) (w : σ) (b : Option ProgressBar) :
    ∀ e ∈ (copyLoop m r ws fuel N written ⟨w, [], b⟩).1.trace, P e := by
  induction fuel generalizing N written w b with
  | zero => intro e he; simp [copyLoop] at he
  | succ fuel ih =>
    by_cases hN : N ≤ 0
    · rw [copyLoop_nonpos m r ws _ N written _ hN]
      intro e he; simp at he
    · have hmwp := hmw (m.Read w r (min copyBufSize N.toNat)).2.1
        (m.Read w r (min copyBufSize N.toNat)).1 b
      rcases copyLoop_round m r ws fuel N written w b (by omega) _ _ rfl rfl with
        ⟨_, _, err, h⟩ | ⟨_, _, e1, h⟩ | ⟨_, _, _, err, h⟩ | ⟨_, _, _, h⟩
      · rw [h]
        intro e he
        simp only [List.mem_singleton] at he
        rw [he]; exact hread _ _ _
      · rw [h]
        intro e he
        simp only [Env.prepend_trace, List.mem_append, List.mem_singleton] at he
        rcases he with rfl | he
        · exact hread _ _ _
        · exact hmwp e he
      · rw [h]
        intro e he
        simp only [Env.prepend_trace, List.mem_append, List.mem_singleton] at he
        rcases he with rfl | he
        · exact hread _ _ _
        · exact hmwp e he
      · rw [h]
        intro e he
        simp only [Env.prepend_trace, List.mem_append, List.mem_cons] at he
        rcases he with (rfl | he) | he
        · exact hread _ _ _
        · exact hmwp e he
        · exact ih _ _ _ _ e he

theorem bytesRead_round (ev : Event) (a c : List Event) (d : List Byte)
    (h1 : Event.dataRead ev = some d) (h2 : bytesRead a = []) :
    bytesRead (ev :: a ++ c) = d ++ bytesRead c := by
  have h3 : bytesRead (ev :: a ++ c) = bytesRead [ev] ++ (bytesRead a ++ bytesRead c) := by
    rw [← bytesRead_append, ← bytesRead_append]; rfl
  rw [h3, h2]
  simp [bytesRead, h1]

theorem copyLoop_delivers (m : clientManager σ) (r : Handle) (quiet : Bool) (hs : List Handle)
    (content : σ → List Byte) (hdel : Delivers m r content) (hw : WritesSucceed m)
    (fuel : Nat) (N written : Int) (w : σ) (b : Option ProgressBar)
    (hfuel : N.toNat < fuel) (hlen : N.toNat ≤ (content w).length) :
    bytesRead (copyLoop m r (copyWriters quiet hs) fuel N written ⟨w, [], b⟩).1.trace =
      (content w).take N.toNat := by
  induction fuel generalizing N written w b with
  | zero => omega
  | succ fuel ih =>
    by_cases hN : N ≤ 0
    · rw [copyLoop_nonpos m r _ _ N written _ hN]
      have : N.toNat = 0 := by omega
      simp [bytesRead, this]
    · have hpos : 0 < min copyBufSize N.toNat := by
        simp only [copyBufSize]; omega
      have hne : content w ≠ [] := by
        intro h; rw [h] at hlen; simp at hlen; omega
      have hnext := hdel.read_next w _ hpos hne
      have herr := hdel.read_err w _ hpos hne
      have hrle := m.read_le w r (min copyBufSize N.toNat)
      have hle : (m.Read w r (min copyBufSize N.toNat)).2.1.length ≤ N.toNat :=
        le_trans hrle (Nat.min_le_right _ _)
      obtain ⟨f1, f2⟩ := multiWriterWrite_full m content hw hdel.write_keeps
        (m.Read w r (min copyBufSize N.toNat)).2.1 (copyWriters quiet hs) 0
        ⟨(m.Read w r (min copyBufSize N.toNat)).1, [], b⟩
      dsimp only at f2
      have hmwr := (multiWriterWrite_spec m (m.Read w r (min copyBufSize N.toNat)).2.1 quiet hs 0
        ⟨(m.Read w r (min copyBufSize N.toNat)).1, [], b⟩ rfl).2.1
      generalize hrr : m.Read w r (min copyBufSize N.toNat) = rr at hnext herr hle f1 f2 hmwr
      generalize hmw : multiWriterWrite m rr.2.1 (copyWriters quiet hs) 0 ⟨rr.1, [], b⟩ = mw
        at f1 f2 hmwr
      have hclen : (content w).length = rr.2.1.length + (content rr.1).length := by
        rw [← List.length_append, ← hnext]
      rcases copyLoop_round m r (copyWriters quiet hs) fuel N written w b (by omega) rr mw
        hrr.symm hmw.symm
        with ⟨h1, h2, err, h⟩ | ⟨_, h2, e1, h⟩ | ⟨_, _, h3, err, h⟩ | ⟨h1, _, _, h⟩
      · rcases herr with h0 | h0
        · exact absurd h0 h2
        · rw [h1, h0] at hnext
          exact absurd hnext hne
      · rw [f1] at h2
        rcases h2 with h2 | h2
        · exact absurd rfl h2
        · exact absurd rfl h2
      · rcases herr with h0 | h0
        · exact absurd h0 h3
        · rw [h]
          have hb : bytesRead (mw.1.prepend
              [Event.read r (min copyBufSize N.toNat) rr.2.1 rr.2.2]).trace = rr.2.1 := by
            simp only [Env.prepend_trace, bytesRead_append, hmwr]
            simp [bytesRead, Event.dataRead]
          rw [hb]
          rw [h0, List.append_nil] at hnext
          rw [hnext]
          rw [List.take_of_length_le hle]
      · rw [h]
        have hposlen : 0 < rr.2.1.length := List.length_pos.2 h1
        have hrec := ih (N - rr.2.1.length) (written + rr.2.1.length) mw.1.world mw.1.bar
          (by omega) (by rw [f2]; omega)
        simp only [Env.prepend_trace]
        rw [bytesRead_round (Event.read r (min copyBufSize N.toNat) rr.2.1 rr.2.2) mw.1.trace _
          rr.2.1 rfl hmwr, hrec, f2]
        conv_rhs => rw [hnext]
        rw [List.take_append_eq_append_take, List.take_of_length_le hle]
        congr 2
        omega

theorem writesOn_of_not_transfer (hs : List Handle) (e : Event) (h : e.isTransfer = false) :
    e.writesOn hs := by
  cases e <;> simp_all [Event.writesOn, Event.isTransfer]

theorem bytesWrittenTo_eq (hs : List Handle) (i : Nat) (h : Handle) (t : List Event)
    (hon : ∀ e ∈ t, e.writesOn hs) (hi : hs[i]? = some h) :
    bytesWrittenTo i h t = bytesWritten i t := by
  induction t with
  | nil => rfl
  | cons e t ih =>
    have ht := ih (fun x hx => hon x (List.mem_cons_of_mem _ hx))
    have he := hon e (List.mem_cons_self _ _)
    simp only [bytesWrittenTo, bytesWritten] at ht ⊢
    have hev : Event.dataWrittenTo i h e = Event.dataWritten i e := by
      cases e with
      | write j k p n err =>
        simp only [Event.writesOn] at he
        simp only [Event.dataWrittenTo, Event.dataWritten]
        by_cases hj : j = i
        · subst hj
          rw [hi] at he
          have hk : k = h := by
            injection he with he; exact he.symm
          simp [hk]
        · simp [hj]
      | _ => rfl
    simp only [List.filterMap_cons, hev]
    cases Event.dataWritten i e with
    | none => exact ht
    | some d => simp only [List.flatten_cons, ht]

theorem demoManager_delivers (declared : Int) (chunk : Nat) (badBucket : String)
    (closeFails : Bool) (hchunk : 0 < chunk) :
    Delivers (demoManager declared chunk badBucket closeFails) 0 (fun s => s.content) where
  read_next s n hn hne := by
    simp only [demoManager]
    by_cases h : s.content.take (min n chunk) = []
    · simp [h]
    · simp [h]
  read_err s n hn hne := by
    simp only [demoManager]
    by_cases h : s.content.take (min n chunk) = []
    · have hk : 0 < min n chunk := by omega
      cases hc : s.content with
      | nil => exact absurd hc hne
      | cons a l =>
        rw [hc] at h
        cases hm : min n chunk with
        | zero => omega
        | succ k => rw [hm] at h; simp at h
    · simp [h]
  write_keeps _ _ _ := rfl

/-- C1. Let `getSourceReader` succeed with `(reader, length, hash)` and let
`getTargetWriter` succeed for every destination in turn, returning the handles
`hs`.  Let the reader deliver a stream of at least `length` bytes (`content`
is what remains of it; `Delivers`), and let every `Write` on every target
accept the whole chunk without error.  Then `doCopyCmd` returns `("", nil)`;
the bytes read from the source are exactly the first `length` bytes of the
stream (none when `length` is negative); every `Write` of the run is a write
on the handle `getTargetWriter` returned for that position; and each of these
handles accepted exactly those first `length` bytes, in source order. -/
theorem doCopyCmd_copies_length_bytes (m : clientManager σ) (quiet : Bool) (src : parsedURL)
    (tgts : List parsedURL) (s : σ) (reader : Handle) (length : Int) (md5 : String) (s2 : σ)
    (hs : List Handle) (content : σ → List Byte)
    (hsrc : (m.getSourceReader s src).2 = SourceResult.opened reader length md5)
    (htgt : opens m md5 length (m.getSourceReader s src).1 tgts = some (s2, hs))
    (hdel : Delivers m reader content)
    (hlen : length ≤ (content s2).length)
    (hw : WritesSucceed m) :
    (doCopyCmd m quiet src tgts s).msg = "" ∧
    (doCopyCmd m quiet src tgts s).err = none ∧
    (doCopyCmd m quiet src tgts s).copied = some none ∧
    openedTargets (doCopyCmd m quiet src tgts s).env.trace = hs ∧
    hs.length = tgts.length ∧
    ((content s2).take length.toNat).length = length.toNat ∧
    bytesRead (doCopyCmd m quiet src tgts s).env.trace = (content s2).take length.toNat ∧
    (∀ e ∈ (doCopyCmd m quiet src tgts s).env.trace, e.writesOn hs) ∧
    ∀ i h, hs[i]? = some h →
      bytesWrittenTo i h (doCopyCmd m quiet src tgts s).env.trace =
        (content s2).take length.toNat := by
  have hlen2 := opens_length m md5 length tgts _ s2 hs htgt
  obtain ⟨b, tcl, rc, cp, hcp, h1, h2, h3, htr, _, hcl2, hbr, hbw, _, hop, hmem⟩ :=
    doCopyCmd_streams m quiet src tgts s reader length md5 s2 hs hsrc htgt
  have hbrc : bytesRead cp.1.trace = (content s2).take length.toNat := by
    rw [hcp, ioCopyN_env]
    exact copyLoop_delivers m reader quiet hs content hdel hw _ length 0 s2 b (by omega)
      (by omega)
  have hokc : ∀ e ∈ cp.1.trace, e.writeFailed = false := by
    rw [hcp, ioCopyN_env]
    exact copyLoop_events m reader _ (fun e => e.writeFailed = false) (fun _ _ _ => rfl)
      (fun p w b => multiWriterWrite_accepts m hw p _ 0 w b) _ _ _ _ _
  have honc : ∀ e ∈ cp.1.trace, e.writesOn hs := by
    rw [hcp, ioCopyN_env]
    exact copyLoop_events m reader _ (fun e => e.writesOn hs) (fun _ _ _ => trivial)
      (fun p w b => by simpa using multiWriterWrite_on m p quiet [] hs w b) _ _ _ _ _
  have htake : ((content s2).take length.toNat).length = length.toNat := by
    rw [List.length_take]; omega
  obtain ⟨_, _, c3⟩ := ioCopyN_spec m reader quiet hs length s2 b
  rw [← hcp] at c3
  obtain ⟨d1, _, d3⟩ := c3 hokc (by rw [hbrc, htake]; omega)
  have hon : ∀ e ∈ (doCopyCmd m quiet src tgts s).env.trace, e.writesOn hs := by
    intro e he
    rw [htr] at he
    rcases List.mem_append.1 he with he | he
    · rcases List.mem_append.1 he with he | he
      · rcases List.mem_append.1 he with he | he
        · rcases List.mem_append.1 he with he | he
          · rcases List.mem_append.1 he with he | he
            · rw [List.mem_singleton.1 he]; trivial
            · exact writesOn_of_not_transfer hs e
                (acquires_flags _ (openEvents_acquire md5 length tgts hs) e he).1
          · cases quiet with
            | true => simp at he
            | false =>
              simp at he
              rw [he]; trivial
        · exact honc e he
      · exact writesOn_of_not_transfer hs e (closes_flags _ hcl2 e he).1
    · rw [List.mem_singleton.1 he]; trivial
  refine ⟨?_, ?_, ?_, hop, hlen2, htake, ?_, hon, ?_⟩
  · rw [h2, d1]; simp
  · rw [h3, d1]; rfl
  · rw [h1, d1]
  · rw [hbr]; exact hbrc
  · intro i h hi
    have hi2 : i < hs.length := by
      rcases List.getElem?_eq_some_iff.1 hi with ⟨hlt, _⟩
      exact hlt
    rw [bytesWrittenTo_eq hs i h _ hon hi, hbw i, d3 i hi2, hbrc]

/-- Witness of C1: three bytes, delivered in chunks of two, to two targets. -/
theorem doCopyCmd_copies_length_bytes_witness :
    (doCopyCmd (demoManager 3 2 "bad" false) false (loc "src") [loc "d1", loc "d2"]
        ⟨[7, 8, 9], 1⟩).err = none ∧
    bytesWrittenTo 1 2 (doCopyCmd (demoManager 3 2 "bad" false) false (loc "src")
        [loc "d1", loc "d2"] ⟨[7, 8, 9], 1⟩).env.trace = [7, 8, 9] := by
  have h := doCopyCmd_copies_length_bytes (demoManager 3 2 "bad" false) false (loc "src")
    [loc "d1", loc "d2"] ⟨[7, 8, 9], 1⟩ 0 3 "abc123" ⟨[7, 8, 9], 3⟩ [1, 2]
    (fun s => s.content) (by decide) (by decide)
    (demoManager_delivers 3 2 "bad" false (by decide)) (by decide) (fun _ _ _ => rfl)
  exact ⟨h.2.1, h.2.2.2.2.2.2.2.2 1 2 (by decide)⟩

/-! ## Short writes -/

theorem multiWriterWrite_short (m : clientManager σ) (p : List Byte) (ws : List Writer)
    (i : Nat) (w : σ) (b : Option ProgressBar)
    (hex : ∃ e ∈ (multiWriterWrite m p ws i ⟨w, [], b⟩).1.trace, e.shortWrite = true) :
    (multiWriterWrite m p ws i ⟨w, [], b⟩).2.1 < p.length ∧
    (multiWriterWrite m p ws i ⟨w, [], b⟩).2.2 ≠ none := by
  induction ws generalizing i w b with
  | nil =>
    obtain ⟨e, he, _⟩ := hex
    simp [multiWriterWrite] at he
  | cons x ws ih =>
    have hev : ∃ ev, (writerWrite m i x p ⟨w, [], b⟩).1.trace = [ev] ∧
        (writerWrite m i x p ⟨w, [], b⟩).2.1 ≤ p.length ∧
        (ev.shortWrite = true → (writerWrite m i x p ⟨w, [], b⟩).2.1 ≠ p.length) := by
      cases x with
      | target h =>
        refine ⟨Event.write i h p (m.Write w h p).2.1 (m.Write w h p).2.2, rfl,
          m.write_le w h p, ?_⟩
        intro hsw
        simpa [Event.shortWrite] using hsw
      | bar =>
        exact ⟨Event.barWrite p, rfl, Nat.le_refl _, fun h => by simp [Event.shortWrite] at h⟩
    obtain ⟨ev, h1, h2, h3⟩ := hev
    have hfr := multiWriterWrite_prepend m p ws (i + 1) [ev]
      ⟨(writerWrite m i x p ⟨w, [], b⟩).1.world, [], (writerWrite m i x p ⟨w, [], b⟩).1.bar⟩
    simp only [Env.prepend, List.append_nil] at hfr
    have henv : (writerWrite m i x p ⟨w, [], b⟩).1 =
        ⟨(writerWrite m i x p ⟨w, [], b⟩).1.world, [ev],
          (writerWrite m i x p ⟨w, [], b⟩).1.bar⟩ := by
      rw [← h1]
    simp only [multiWriterWrite] at hex ⊢
    split
    · rename_i e1 he1
      rw [he1] at hex
      obtain ⟨e, he, hsw⟩ := hex
      simp only [h1, List.mem_singleton] at he
      rw [he] at hsw
      exact ⟨lt_of_le_of_ne h2 (h3 hsw), by simp⟩
    · rename_i he1
      rw [he1] at hex
      simp only [] at hex
      split
      · rename_i hne
        exact ⟨lt_of_le_of_ne h2 hne, by simp⟩
      · rename_i hne
        rw [if_neg hne] at hex
        rw [henv, hfr] at hex ⊢
        obtain ⟨e, he, hsw⟩ := hex
        simp only [List.mem_append, List.mem_singleton] at he
        rcases he with rfl | he
        · exact absurd (not_not.1 hne) (h3 hsw)
        · exact ih (i + 1) _ _ ⟨e, he, hsw⟩

theorem copyLoop_short (m : clientManager σ) (r : Handle) (quiet : Bool) (hs : List Handle)
    (fuel : Nat) (N written : Int) (w : σ) (b : Option ProgressBar)
    (hex : ∃ e ∈ (copyLoop m r (copyWriters quiet hs) fuel N written ⟨w, [], b⟩).1.trace,
      e.shortWrite = true) :
    (copyLoop m r (copyWriters quiet hs) fuel N written ⟨w, [], b⟩).2.1 <
      written + (bytesRead (copyLoop m r (copyWriters quiet hs) fuel N written
        ⟨w, [], b⟩).1.trace).length := by
  induction fuel generalizing N written w b with
  | zero =>
    obtain ⟨e, he, _⟩ := hex
    simp [copyLoop] at he
  | succ fuel ih =>
    by_cases hN : N ≤ 0
    · rw [copyLoop_nonpos m r _ _ N written _ hN] at hex
      obtain ⟨e, he, _⟩ := hex
      simp at he
    · have hmwr := (multiWriterWrite_spec m (m.Read w r (min copyBufSize N.toNat)).2.1 quiet hs 0
        ⟨(m.Read w r (min copyBufSize N.toNat)).1, [], b⟩ rfl).2.1
      have hsh := multiWriterWrite_short m (m.Read w r (min copyBufSize N.toNat)).2.1
        (copyWriters quiet hs) 0 (m.Read w r (min copyBufSize N.toNat)).1 b
      generalize hrr : m.Read w r (min copyBufSize N.toNat) = rr at hmwr hsh
      generalize hmw : multiWriterWrite m rr.2.1 (copyWriters quiet hs) 0 ⟨rr.1, [], b⟩ = mw
        at hmwr hsh
      rcases copyLoop_round m r (copyWriters quiet hs) fuel N written w b (by omega) rr mw
        hrr.symm hmw.symm
        with ⟨_, _, err, h⟩ | ⟨h1, _, e1, h⟩ | ⟨_, h2, _, err, h⟩ | ⟨h1, h2, _, h⟩
      · rw [h] at hex
        obtain ⟨e, he, hsw⟩ := hex
        simp only [List.mem_singleton] at he
        rw [he] at hsw
        simp [Event.shortWrite] at hsw
      · rw [h] at hex ⊢
        obtain ⟨e, he, hsw⟩ := hex
        simp only [Env.prepend_trace, List.mem_append, List.mem_singleton] at he
        rcases he with rfl | he
        · simp [Event.shortWrite] at hsw
        · obtain ⟨s1, _⟩ := hsh ⟨e, he, hsw⟩
          have hb : bytesRead ([Event.read r (min copyBufSize N.toNat) rr.2.1 rr.2.2] ++
              mw.1.trace) = rr.2.1 := by
            rw [bytesRead_append, hmwr]
            simp [bytesRead, Event.dataRead]
          simp only [Env.prepend_trace, hb]
          split <;> omega
      · rw [h] at hex
        obtain ⟨e, he, hsw⟩ := hex
        simp only [Env.prepend_trace, List.mem_append, List.mem_singleton] at he
        rcases he with rfl | he
        · simp [Event.shortWrite] at hsw
        · obtain ⟨s1, s2⟩ := hsh ⟨e, he, hsw⟩
          rw [h2] at s2
          exact absurd rfl s2
      · rw [h] at hex ⊢
        obtain ⟨e, he, hsw⟩ := hex
        simp only [Env.prepend_trace, List.mem_append, List.mem_cons] at he
        rcases he with (rfl | he) | he
        · simp [Event.shortWrite] at hsw
        · obtain ⟨s1, s2⟩ := hsh ⟨e, he, hsw⟩
          rw [h2] at s2
          exact absurd rfl s2
        · have hrec := ih (N - rr.2.1.length) (written + rr.2.1.length) mw.1.world mw.1.bar
            ⟨e, he, hsw⟩
          simp only [Env.prepend_trace]
          rw [bytesRead_round (Event.read r (min copyBufSize N.toNat) rr.2.1 rr.2.2)
            mw.1.trace _ rr.2.1 rfl hmwr]
          simp only [List.length_append]
          push_cast
          omega

theorem ioCopyN_short (m : clientManager σ) (r : Handle) (quiet : Bool) (hs : List Handle)
    (n : Int) (w : σ) (b : Option ProgressBar)
    (hex : ∃ e ∈ (ioCopyN m r (copyWriters quiet hs) n ⟨w, [], b⟩).1.trace,
      e.shortWrite = true) :
    (ioCopyN m r (copyWriters quiet hs) n ⟨w, [], b⟩).2.2 ≠ none := by
  rw [ioCopyN_env] at hex
  have h1 := copyLoop_short m r quiet hs (n.toNat + 1) n 0 w b hex
  obtain ⟨_, c2, _, _⟩ := copyLoop_spec m r quiet hs (n.toNat + 1) n 0 w b
  have hn : 0 < n := by
    by_contra hneg
    rw [copyLoop_nonpos m r _ _ n 0 _ (by omega)] at hex
    obtain ⟨e, he, _⟩ := hex
    simp at he
  simp only [ioCopyN]
  split
  · omega
  · split
    · simp
    · rename_i h3 h4
      intro hnone
      exact h4 ⟨by omega, hnone⟩

/-- C6 fails on the code, in two ways.  First run: five bytes are declared and
the reader ends after three, so `io.CopyN` returns `EOF`; the `Close` of the
only target succeeds; the message returned is the close-all-connections one,
although no `Close` failed.  Second run: two bytes are declared and read in
one chunk, the `Write` on the first target returns an error together with the
full count, so the second target is never written; `io.CopyN` returns nil
because the count equals the length, every `Close` succeeds, and `doCopyCmd`
returns `("", nil)`: a failed write is not surfaced. -/
theorem doCopyCmd_stream_failure_counterexamples :
    ((doCopyCmd (demoManager 5 2 "bad" false) true (loc "src") [loc "d1"]
        ⟨[7, 8, 9], 1⟩).copied = some (some Error.EOF) ∧
     (∀ e ∈ (doCopyCmd (demoManager 5 2 "bad" false) true (loc "src") [loc "d1"]
        ⟨[7, 8, 9], 1⟩).env.trace, e.closeFailed = false) ∧
     (doCopyCmd (demoManager 5 2 "bad" false) true (loc "src") [loc "d1"]
        ⟨[7, 8, 9], 1⟩).msg = "Unable to close all connections, write may of failed." ∧
     ¬ ((doCopyCmd (demoManager 5 2 "bad" false) true (loc "src") [loc "d1"]
        ⟨[7, 8, 9], 1⟩).msg = closeMessage →
       ∃ e ∈ (doCopyCmd (demoManager 5 2 "bad" false) true (loc "src") [loc "d1"]
        ⟨[7, 8, 9], 1⟩).env.trace, e.closeFailed = true)) ∧
    ((doCopyCmd (lateErrorManager 2 2) true (loc "src") [loc "d1", loc "d2"]
        ⟨[7, 8, 9], 1⟩).env.trace.filter Event.writeFailed =
        [Event.write 0 1 [7, 8] 2 (some (Error.other "write failed"))] ∧
     (∀ e ∈ (doCopyCmd (lateErrorManager 2 2) true (loc "src") [loc "d1", loc "d2"]
        ⟨[7, 8, 9], 1⟩).env.trace, e.closeFailed = false) ∧
     bytesWrittenTo 1 2 (doCopyCmd (lateErrorManager 2 2) true (loc "src")
        [loc "d1", loc "d2"] ⟨[7, 8, 9], 1⟩).env.trace = [] ∧
     (doCopyCmd (lateErrorManager 2 2) true (loc "src") [loc "d1", loc "d2"]
        ⟨[7, 8, 9], 1⟩).copied = some none ∧
     (doCopyCmd (lateErrorManager 2 2) true (loc "src") [loc "d1", loc "d2"]
        ⟨[7, 8, 9], 1⟩).msg = "" ∧
     (doCopyCmd (lateErrorManager 2 2) true (loc "src") [loc "d1", loc "d2"]
        ⟨[7, 8, 9], 1⟩).err = none) := by
  decide

/-- C6 as the code has it.  Take a run that reaches the streaming phase
(source and every target opened) and in which every target `Close` succeeds.
If the bounded copy fails by a short read (fewer than `length` bytes were read)
or by a failed write, the one failed write left out being a `Write` that
returns its error with the full count on the chunk that completes `length`
bytes, then `io.CopyN` returned an error `x` and `doCopyCmd` returns the
message "Unable to close all connections, write may of failed." with `x`
wrapped by `iodine.New`.  That message is returned only if `io.CopyN` returned
an error, and when `io.CopyN` returned nil the result is `("", nil)`. -/
theorem doCopyCmd_stream_error_surfaces (m : clientManager σ) (quiet : Bool)
    (src : parsedURL) (tgts : List parsedURL) (s : σ) (reader : Handle) (length : Int)
    (md5 : String) (s2 : σ) (hs : List Handle)
    (hsrc : (m.getSourceReader s src).2 = SourceResult.opened reader length md5)
    (htgt : opens m md5 length (m.getSourceReader s src).1 tgts = some (s2, hs))
    (hclose : ∀ e ∈ (doCopyCmd m quiet src tgts s).env.trace, e.closeFailed = false) :
    ((((bytesRead (doCopyCmd m quiet src tgts s).env.trace).length : Int) < length ∨
        (∃ e ∈ (doCopyCmd m quiet src tgts s).env.trace, e.writeFailed = true ∧
          (e.shortWrite = true ∨
            ((bytesRead (doCopyCmd m quiet src tgts s).env.trace).length : Int) ≠ length))) →
      ∃ x, (doCopyCmd m quiet src tgts s).copied = some (some x) ∧
        (doCopyCmd m quiet src tgts s).msg = closeMessage ∧
        (doCopyCmd m quiet src tgts s).err = some (Error.iodine x [])) ∧
    ((doCopyCmd m quiet src tgts s).msg = closeMessage →
      ∃ x, (doCopyCmd m quiet src tgts s).copied = some (some x)) ∧
    ((doCopyCmd m quiet src tgts s).copied = some none →
      (doCopyCmd m quiet src tgts s).msg = "" ∧ (doCopyCmd m quiet src tgts s).err = none) := by
  have _ := hclose
  obtain ⟨b, tcl, rc, cp, hcp, h1, h2, h3, htr, _, hcl2, hbr, _, _, _, _⟩ :=
    doCopyCmd_streams m quiet src tgts s reader length md5 s2 hs hsrc htgt
  obtain ⟨_, c2, _⟩ := ioCopyN_spec m reader quiet hs length s2 b
  rw [← hcp] at c2
  have hshort := ioCopyN_short m reader quiet hs length s2 b
  rw [← hcp] at hshort
  have hbound : (bytesRead cp.1.trace).length ≤ length.toNat := by
    rw [hcp, ioCopyN_env]
    exact (copyLoop_spec m reader quiet hs (length.toNat + 1) length 0 s2 b).2.1
  have hres : ∀ x, cp.2.2 = some x →
      (doCopyCmd m quiet src tgts s).copied = some (some x) ∧
      (doCopyCmd m quiet src tgts s).msg = closeMessage ∧
      (doCopyCmd m quiet src tgts s).err = some (Error.iodine x []) := by
    intro x hx
    refine ⟨by rw [h1, hx], ?_, by rw [h3, hx]; rfl⟩
    rw [h2, if_pos (by rw [hx]; simp)]
  have hfail : cp.2.2 ≠ none →
      ∃ x, (doCopyCmd m quiet src tgts s).copied = some (some x) ∧
        (doCopyCmd m quiet src tgts s).msg = closeMessage ∧
        (doCopyCmd m quiet src tgts s).err = some (Error.iodine x []) := by
    intro hne
    cases hc : cp.2.2 with
    | none => exact absurd hc hne
    | some x => exact ⟨x, hres x hc⟩
  refine ⟨?_, ?_, ?_⟩
  · intro htrig
    apply hfail
    rcases htrig with hlt | ⟨e, he, hwf, hcase⟩
    · rw [hbr] at hlt
      exact c2 hlt
    · have hecp : e ∈ cp.1.trace := by
        rw [htr] at he
        rcases List.mem_append.1 he with he | he
        · rcases List.mem_append.1 he with he | he
          · rcases List.mem_append.1 he with he | he
            · rcases List.mem_append.1 he with he | he
              · rcases List.mem_append.1 he with he | he
                · rw [List.mem_singleton.1 he] at hwf
                  simp [Event.writeFailed] at hwf
                · have := (acquires_flags _ (openEvents_acquire md5 length tgts hs) e he).2.2.1
                  rw [this] at hwf
                  cases hwf
              · cases quiet with
                | true => simp at he
                | false =>
                  simp at he
                  rw [he] at hwf
                  simp [Event.writeFailed] at hwf
            · exact he
          · have := (closes_flags _ hcl2 e he).2.2.1
            rw [this] at hwf
            cases hwf
        · rw [List.mem_singleton.1 he] at hwf
          simp [Event.writeFailed] at hwf
      rcases hcase with hsw | hne
      · exact hshort ⟨e, hecp, hsw⟩
      · rw [hbr] at hne
        have hpos : 0 < length := by
          by_contra hneg
          rw [hcp, ioCopyN_env, copyLoop_nonpos m reader _ _ length 0 _ (by omega)] at hecp
          simp at hecp
        exact c2 (by omega)
  · intro hmsg
    cases hc : cp.2.2 with
    | none =>
      rw [h2, hc] at hmsg
      simp at hmsg
      exact absurd hmsg (by decide)
    | some x => exact ⟨x, (hres x hc).1⟩
  · intro hcop
    rw [h1] at hcop
    have hc : cp.2.2 = none := by
      injection hcop
    refine ⟨by rw [h2, hc]; simp, by rw [h3, hc]; rfl⟩

/-- Witness of C6 as the code has it: the short source of the first run above. -/
theorem doCopyCmd_stream_error_surfaces_witness :
    ∃ x, (doCopyCmd (demoManager 5 2 "bad" false) true (loc "src") [loc "d1"]
        ⟨[7, 8, 9], 1⟩).copied = some (some x) ∧
      (doCopyCmd (demoManager 5 2 "bad" false) true (loc "src") [loc "d1"]
        ⟨[7, 8, 9], 1⟩).msg = closeMessage ∧
      (doCopyCmd (demoManager 5 2 "bad" false) true (loc "src") [loc "d1"]
        ⟨[7, 8, 9], 1⟩).err = some (Error.iodine x []) :=
  (doCopyCmd_stream_error_surfaces (demoManager 5 2 "bad" false) true (loc "src")
    [loc "d1"] ⟨[7, 8, 9], 1⟩ 0 5 "abc123" ⟨[7, 8, 9], 2⟩ [1] (by decide) (by decide)
    (by decide)).1 (Or.inl (by decide))

/-! ## Where the bar is written -/

theorem insertBar_append (hs : List Handle) (t u : List Event) :
    insertBar hs (t ++ u) = insertBar hs t ++ insertBar hs u := by
  induction t with
  | nil => rfl
  | cons e t ih => simp [insertBar, ih]

theorem insertBar_id (hs : List Handle) (t : List Event)
    (h : ∀ e ∈ t, e.isTransfer = false) : insertBar hs t = t := by
  induction t with
  | nil => rfl
  | cons e t ih =>
    have he := h e (List.mem_cons_self _ _)
    have hb : barAfter hs e = [] := by
      cases e <;> simp_all [Event.isTransfer, barAfter]
    simp [insertBar, hb, ih (fun x hx => h x (List.mem_cons_of_mem _ hx))]

theorem filter_insertBar (hs : List Handle) (t : List Event) :
    (insertBar hs t).filter (fun e => !e.isBar) = t.filter (fun e => !e.isBar) := by
  induction t with
  | nil => rfl
  | cons e t ih =>
    have hb : (barAfter hs e).filter (fun x => !x.isBar) = [] := by
      cases e with
      | write i h p n err =>
        simp only [barAfter]
        split <;> simp [Event.isBar]
      | read r n d err =>
        simp only [barAfter]
        split <;> simp [Event.isBar]
      | _ => rfl
    simp only [insertBar, List.filter_cons, List.filter_append, hb, List.nil_append, ih]

/-- One `Write` of the multi-writer, with the bar and without it, from index
`done.length` on: same result and state, and the trace with the bar is the
trace without it with the write to the bar put in. -/
theorem multiWriterWrite_loud (m : clientManager σ) (p : List Byte)
    (done todo : List Handle) (htodo : todo ≠ []) (w : σ) (bq bl : Option ProgressBar) :
    (multiWriterWrite m p (copyWriters false todo) done.length ⟨w, [], bl⟩).1.trace =
      insertBar (done ++ todo)
        (multiWriterWrite m p (copyWriters true todo) done.length ⟨w, [], bq⟩).1.trace ∧
    (multiWriterWrite m p (copyWriters false todo) done.length ⟨w, [], bl⟩).1.world =
      (multiWriterWrite m p (copyWriters true todo) done.length ⟨w, [], bq⟩).1.world ∧
    (multiWriterWrite m p (copyWriters false todo) done.length ⟨w, [], bl⟩).2 =
      (multiWriterWrite m p (copyWriters true todo) done.length ⟨w, [], bq⟩).2 := by
  induction todo generalizing done w bq bl with
  | nil => exact absurd rfl htodo
  | cons h todo ih =>
    have hcw : ∀ q, copyWriters q (h :: todo) = Writer.target h :: copyWriters q todo := by
      intro q; simp [copyWriters]
    rw [hcw, hcw]
    simp only [multiWriterWrite, writerWrite, List.nil_append]
    cases herr : (m.Write w h p).2.2 with
    | some e1 =>
      simp [insertBar, barAfter, herr]
    | none =>
      simp only []
      by_cases hcnt : (m.Write w h p).2.1 ≠ p.length
      · rw [if_pos hcnt, if_pos hcnt]
        simp [insertBar, barAfter, hcnt]
      · rw [if_neg hcnt, if_neg hcnt]
        have hc : (m.Write w h p).2.1 = p.length := not_not.1 hcnt
        have hfq := multiWriterWrite_prepend m p (copyWriters true todo) (done.length + 1)
          [Event.write done.length h p (m.Write w h p).2.1 none] ⟨(m.Write w h p).1, [], bq⟩
        have hfl := multiWriterWrite_prepend m p (copyWriters false todo) (done.length + 1)
          [Event.write done.length h p (m.Write w h p).2.1 none] ⟨(m.Write w h p).1, [], bl⟩
        simp only [Env.prepend, List.append_nil] at hfq hfl
        rw [hfq, hfl]
        cases todo with
        | nil =>
          simp [copyWriters, multiWriterWrite, writerWrite, insertBar, barAfter, hc]
        | cons h2 rest =>
          obtain ⟨i1, i2, i3⟩ := ih (done ++ [h]) (by simp) (m.Write w h p).1 bq bl
          simp only [List.length_append, List.length_singleton, List.append_assoc,
            List.singleton_append] at i1 i2 i3
          refine ⟨?_, i2, i3⟩
          simp only [List.singleton_append, insertBar]
          rw [i1]
          have hb : barAfter (done ++ h :: h2 :: rest)
              (Event.write done.length h p (m.Write w h p).2.1 none) = [] := by
            simp only [barAfter, List.length_append, List.length_cons]
            rw [if_neg]
            intro hh
            omega
          rw [hb]
          rfl

theorem multiWriterWrite_loud_first (m : clientManager σ) (p : List Byte) (hs : List Handle)
    (w : σ) (bq bl : Option ProgressBar) :
    (multiWriterWrite m p (copyWriters false hs) 0 ⟨w, [], bl⟩).1.trace =
      (if hs = [] then [Event.barWrite p] else []) ++ insertBar hs
        (multiWriterWrite m p (copyWriters true hs) 0 ⟨w, [], bq⟩).1.trace ∧
    (multiWriterWrite m p (copyWriters false hs) 0 ⟨w, [], bl⟩).1.world =
      (multiWriterWrite m p (copyWriters true hs) 0 ⟨w, [], bq⟩).1.world ∧
    (multiWriterWrite m p (copyWriters false hs) 0 ⟨w, [], bl⟩).2 =
      (multiWriterWrite m p (copyWriters true hs) 0 ⟨w, [], bq⟩).2 := by
  cases hs with
  | nil => simp [copyWriters, multiWriterWrite, writerWrite, insertBar]
  | cons h hs =>
    have := multiWriterWrite_loud m p [] (h :: hs) (by simp) w bq bl
    simpa using this

/-- The trace of a round of the copy loop with `0 < N`, started on an empty
trace, as one expression. -/
theorem copyLoop_round_trace (m : clientManager σ) (r : Handle) (ws : List Writer)
    (fuel : Nat) (N written : Int) (w : σ) (b : Option ProgressBar) (hN : 0 < N)
    (rr : σ × List Byte × Option Error) (mw : Env σ × Nat × Option Error)
    (hrr : rr = m.Read w r (min copyBufSize N.toNat))
    (hmw : mw = multiWriterWrite m rr.2.1 ws 0 ⟨rr.1, [], b⟩) :
    (copyLoop m r ws (fuel + 1) N written ⟨w, [], b⟩).1.trace =
      Event.read r (min copyBufSize N.toNat) rr.2.1 rr.2.2 ::
        (if rr.2.1 = [] then []
         else mw.1.trace ++
          (if mw.2 = (rr.2.1.length, none) ∧ rr.2.2 = none then
            (copyLoop m r ws fuel (N - rr.2.1.length) (written + rr.2.1.length)
              ⟨mw.1.world, [], mw.1.bar⟩).1.trace
           else [])) := by
  rcases copyLoop_round m r ws fuel N written w b hN rr mw hrr hmw with
    ⟨h1, _, err, h⟩ | ⟨h1, h2, e1, h⟩ | ⟨h1, h2, h3, err, h⟩ | ⟨h1, h2, h3, h⟩
  · rw [h, if_pos h1]
  · have hc : ¬ (mw.2 = (rr.2.1.length, none) ∧ rr.2.2 = none) := by
      intro hh
      rw [hh.1] at h2
      rcases h2 with h2 | h2
      · exact h2 rfl
      · exact h2 rfl
    rw [h, if_neg h1, if_neg hc]
    simp
  · have hc : ¬ (mw.2 = (rr.2.1.length, none) ∧ rr.2.2 = none) := fun hh => h3 hh.2
    rw [h, if_neg h1, if_neg hc]
    simp
  · rw [h, if_neg h1, if_pos ⟨h2, h3⟩]
    simp

theorem copyLoop_loud (m : clientManager σ) (r : Handle) (hs : List Handle) (fuel : Nat)
    (N written : Int) (w : σ) (bq bl : Option ProgressBar) :
    (copyLoop m r (copyWriters false hs) fuel N written ⟨w, [], bl⟩).1.trace =
      insertBar hs (copyLoop m r (copyWriters true hs) fuel N written ⟨w, [], bq⟩).1.trace := by
  induction fuel generalizing N written w bq bl with
  | zero => simp [copyLoop, insertBar]
  | succ fuel ih =>
    by_cases hN : N ≤ 0
    · rw [copyLoop_nonpos m r _ _ N written _ hN, copyLoop_nonpos m r _ _ N written _ hN]
      rfl
    · rw [copyLoop_round_trace m r (copyWriters false hs) fuel N written w bl (by omega) _ _ rfl
          rfl,
        copyLoop_round_trace m r (copyWriters true hs) fuel N written w bq (by omega) _ _ rfl
          rfl]
      obtain ⟨k1, k2, k3⟩ := multiWriterWrite_loud_first m
        (m.Read w r (min copyBufSize N.toNat)).2.1 hs (m.Read w r (min copyBufSize N.toNat)).1
        bq bl
      generalize m.Read w r (min copyBufSize N.toNat) = rr at k1 k2 k3
      generalize hmq : multiWriterWrite m rr.2.1 (copyWriters true hs) 0 ⟨rr.1, [], bq⟩ = mq
        at k1 k2 k3
      generalize hml : multiWriterWrite m rr.2.1 (copyWriters false hs) 0 ⟨rr.1, [], bl⟩ = ml
        at k1 k2 k3
      rw [k3, k2]
      by_cases hd : rr.2.1 = []
      · rw [if_pos hd, if_pos hd]
        simp [insertBar, barAfter, hd]
      · rw [if_neg hd, if_neg hd]
        have hba : barAfter hs (Event.read r (min copyBufSize N.toNat) rr.2.1 rr.2.2) =
            (if hs = [] then [Event.barWrite rr.2.1] else []) := by
          simp only [barAfter]
          by_cases hh : hs = []
          · simp [hh, hd]
          · simp [hh]
        simp only [insertBar, insertBar_append, hba, k1]
        by_cases hc : mq.2 = (rr.2.1.length, none) ∧ rr.2.2 = none
        · rw [if_pos hc, if_pos hc, ih _ _ _ mq.1.bar ml.1.bar]
          simp
        · rw [if_neg hc, if_neg hc]
          simp [insertBar]

theorem ioCopyN_loud (m : clientManager σ) (r : Handle) (hs : List Handle)
    (n : Int) (w : σ) (bq bl : Option ProgressBar) :
    (ioCopyN m r (copyWriters false hs) n ⟨w, [], bl⟩).1.trace =
      insertBar hs (ioCopyN m r (copyWriters true hs) n ⟨w, [], bq⟩).1.trace := by
  rw [ioCopyN_env, ioCopyN_env]
  exact copyLoop_loud m r hs _ n 0 w bq bl

/-! ## The bar of a run -/

theorem writerWrite_barTotal (m : clientManager σ) (i : Nat) (x : Writer) (p : List Byte)
    (env : Env σ) :
    (writerWrite m i x p env).1.bar.map ProgressBar.Total = env.bar.map ProgressBar.Total := by
  cases x with
  | target h => rfl
  | bar =>
    simp only [writerWrite]
    cases env.bar <;> rfl

theorem multiWriterWrite_barTotal (m : clientManager σ) (p : List Byte) (ws : List Writer)
    (i : Nat) (env : Env σ) :
    (multiWriterWrite m p ws i env).1.bar.map ProgressBar.Total =
      env.bar.map ProgressBar.Total := by
  induction ws generalizing i env with
  | nil => rfl
  | cons x ws ih =>
    simp only [multiWriterWrite]
    split
    · exact writerWrite_barTotal m i x p env
    · split
      · exact writerWrite_barTotal m i x p env
      · rw [ih, writerWrite_barTotal]

theorem copyLoop_barTotal (m : clientManager σ) (r : Handle) (ws : List Writer) (fuel : Nat)
    (N written : Int) (env : Env σ) :
    (copyLoop m r ws fuel N written env).1.bar.map ProgressBar.Total =
      env.bar.map ProgressBar.Total := by
  induction fuel generalizing N written env with
  | zero => rfl
  | succ fuel ih =>
    have hrd : (readerRead m r (min copyBufSize N.toNat) env).1.bar = env.bar := rfl
    simp only [copyLoop]
    split
    · rfl
    · split
      · split
        · rw [multiWriterWrite_barTotal, hrd]
        · split
          · rw [multiWriterWrite_barTotal, hrd]
          · split
            · rw [multiWriterWrite_barTotal, hrd]
            · rw [multiWriterWrite_barTotal, hrd]
            · rw [ih, multiWriterWrite_barTotal, hrd]
      · split
        · rw [hrd]
        · rw [hrd]
        · rw [ih, hrd]

theorem doCopyCmd_barTotal (m : clientManager σ) (src : parsedURL) (tgts : List parsedURL)
    (s : σ) (reader : Handle) (length : Int) (md5 : String) (s2 : σ) (hs : List Handle)
    (hsrc : (m.getSourceReader s src).2 = SourceResult.opened reader length md5)
    (htgt : opens m md5 length (m.getSourceReader s src).1 tgts = some (s2, hs)) :
    (doCopyCmd m false src tgts s).env.bar.map ProgressBar.Total = some length := by
  have hgt := getTargetWritersLoop_ok m md5 length tgts []
    ⟨(m.getSourceReader s src).1,
      [Event.getSourceReader src (SourceResult.opened reader length md5)], none⟩ s2 hs htgt
  have hbar : ∀ (env : Env σ), (closeAll m ([] ++ hs) env).bar = env.bar :=
    fun env => (closeAll_spec m ([] ++ hs) env).choose_spec.2.1
  simp only [doCopyCmd, hsrc, getTargetWriters, hgt, closeWriters_eq_closeAll]
  have hfin : ∀ (a b : Outcome σ) (c : Prop) [Decidable c],
      (deferredReaderClose m reader (if c then a else b)).env.bar =
        if c then a.env.bar else b.env.bar := by
    intro a b c _
    split <;> rfl
  rw [hfin]
  simp only [ite_self, hbar, ioCopyN_env, copyLoop_barTotal]
  rfl

theorem bytesWrittenTo_filter (i : Nat) (h : Handle) (t : List Event) :
    bytesWrittenTo i h (t.filter (fun e => !e.isBar)) = bytesWrittenTo i h t := by
  simp only [bytesWrittenTo]
  rw [filterMap_filter_bar _ (fun e he => by
    cases e <;> simp_all [Event.isBar, Event.dataWrittenTo])]

/-- C10. For every manager, locators and state, the run of `doCopyCmd` with
`globalQuietFlag` set and the run with it cleared return the same message and
error and leave the storage layer in the same state; the trace of the quiet
run is the trace of the other run without the events of the progress bar, so
every target handle accepted the same bytes and was closed by the same calls;
the quiet run has no bar event and no bar.  When the source and every target
are opened, the run with the flag cleared constructs the bar with the declared
length, starts it right after the acquisitions, and its trace is that of the
quiet run with, after every chunk, one write of the chunk to the bar placed
directly behind the write the last target accepted in full (behind the read
when there is no target), and nowhere else: the bar is the last member of the
multi-writer, after all targets.  The member lists are the targets alone when
quiet and the targets followed by the bar otherwise. -/
theorem doCopyCmd_quiet_flag (m : clientManager σ) (src : parsedURL) (tgts : List parsedURL)
    (s : σ) :
    (doCopyCmd m true src tgts s).msg = (doCopyCmd m false src tgts s).msg ∧
    (doCopyCmd m true src tgts s).err = (doCopyCmd m false src tgts s).err ∧
    (doCopyCmd m true src tgts s).env.world = (doCopyCmd m false src tgts s).env.world ∧
    (doCopyCmd m true src tgts s).env.trace =
      (doCopyCmd m false src tgts s).env.trace.filter (fun e => !e.isBar) ∧
    (∀ i h, bytesWrittenTo i h (doCopyCmd m true src tgts s).env.trace =
      bytesWrittenTo i h (doCopyCmd m false src tgts s).env.trace) ∧
    closeCalls (doCopyCmd m true src tgts s).env.trace =
      closeCalls (doCopyCmd m false src tgts s).env.trace ∧
    (∀ e ∈ (doCopyCmd m true src tgts s).env.trace, e.isBar = false) ∧
    (doCopyCmd m true src tgts s).env.bar = none ∧
    (∀ (reader : Handle) (length : Int) (md5 : String) (s2 : σ) (hs : List Handle),
      (m.getSourceReader s src).2 = SourceResult.opened reader length md5 →
      opens m md5 length (m.getSourceReader s src).1 tgts = some (s2, hs) →
      (∃ rest,
        (doCopyCmd m true src tgts s).env.trace =
          (Event.getSourceReader src (SourceResult.opened reader length md5) ::
            openEvents md5 length tgts hs) ++ rest ∧
        (doCopyCmd m false src tgts s).env.trace =
          (Event.getSourceReader src (SourceResult.opened reader length md5) ::
            openEvents md5 length tgts hs) ++ Event.barStart length :: insertBar hs rest) ∧
      (doCopyCmd m false src tgts s).env.bar.map ProgressBar.Total = some length ∧
      openedTargets (doCopyCmd m false src tgts s).env.trace = hs) ∧
    (∀ hs : List Handle, copyWriters true hs = hs.map Writer.target ∧
      copyWriters false hs = hs.map Writer.target ++ [Writer.bar]) := by
  obtain ⟨⟨h1, h2, h3⟩, h4, h5, _⟩ := doCopyCmd_quiet m src tgts s
  have hnobar : ∀ e ∈ (doCopyCmd m true src tgts s).env.trace, e.isBar = false := by
    intro e he
    rw [h2] at he
    have := (List.mem_filter.1 he).2
    simpa using this
  refine ⟨h4, h5, h1, h2, ?_, ?_, hnobar, h3, ?_, ?_⟩
  · intro i h
    rw [h2, bytesWrittenTo_filter]
  · rw [h2, closeCalls_filter]
  · intro reader length md5 s2 hs hsrc htgt
    obtain ⟨bq, tq, rq, cpq, hcpq, _, _, _, htrq, _, hclq, _, _, _, _, hmemq⟩ :=
      doCopyCmd_streams m true src tgts s reader length md5 s2 hs hsrc htgt
    obtain ⟨bl, tl, rl, cpl, hcpl, _, _, _, htrl, _, hcll, _, _, _, hopl, _⟩ :=
      doCopyCmd_streams m false src tgts s reader length md5 s2 hs hsrc htgt
    have hloud : cpl.1.trace = insertBar hs cpq.1.trace := by
      rw [hcpl, hcpq]
      exact ioCopyN_loud m reader hs length s2 bq bl
    have hA : ∀ e ∈ [Event.getSourceReader src (SourceResult.opened reader length md5)] ++
        openEvents md5 length tgts hs, e.isBar = false := by
      intro e he
      rcases List.mem_append.1 he with he | he
      · rw [List.mem_singleton.1 he]; rfl
      · exact (acquires_flags _ (openEvents_acquire md5 length tgts hs) e he).2.1
    have hfilt : ∀ (t : List Event), (∀ e ∈ t, e.isBar = false) →
        t.filter (fun e => !e.isBar) = t :=
      fun t ht => List.filter_eq_self.2 (fun e he => by simp [ht e he])
    have hcpqf : cpq.1.trace.filter (fun e => !e.isBar) = cpq.1.trace :=
      hfilt _ (fun e he => hnobar e (hmemq e he))
    have htlf : tl.filter (fun e => !e.isBar) = tl :=
      hfilt _ (fun e he => (closes_flags _ hcll e he).2.1)
    rw [if_pos rfl] at htrq
    rw [if_neg Bool.false_ne_true] at htrl
    have hXY : tq ++ [Event.readerClose reader rq] = tl ++ [Event.readerClose reader rl] := by
      have hq := h2
      have e1 : [Event.getSourceReader src (SourceResult.opened reader length md5)] ++
            openEvents md5 length tgts hs ++ [] ++ cpq.1.trace ++ tq ++
            [Event.readerClose reader rq] =
          ([Event.getSourceReader src (SourceResult.opened reader length md5)] ++
            openEvents md5 length tgts hs) ++
            (cpq.1.trace ++ (tq ++ [Event.readerClose reader rq])) := by
        simp
      have e2 : ([Event.getSourceReader src (SourceResult.opened reader length md5)] ++
            openEvents md5 length tgts hs ++ [Event.barStart length] ++ cpl.1.trace ++ tl ++
            [Event.readerClose reader rl]).filter (fun e => !e.isBar) =
          ([Event.getSourceReader src (SourceResult.opened reader length md5)] ++
            openEvents md5 length tgts hs) ++
            (cpq.1.trace ++ (tl ++ [Event.readerClose reader rl])) := by
        have f1 : ([Event.getSourceReader src (SourceResult.opened reader length md5)] ++
            openEvents md5 length tgts hs ++ [Event.barStart length] ++ cpl.1.trace ++ tl ++
            [Event.readerClose reader rl]) =
            ([Event.getSourceReader src (SourceResult.opened reader length md5)] ++
              openEvents md5 length tgts hs) ++ ([Event.barStart length] ++
              (cpl.1.trace ++ (tl ++ [Event.readerClose reader rl]))) := by
          simp
        rw [f1, List.filter_append, hfilt _ hA, List.filter_append, List.filter_append,
          List.filter_append, hloud, filter_insertBar, hcpqf, htlf]
        rfl
      rw [htrq, htrl, e1, e2] at hq
      exact List.append_cancel_left (List.append_cancel_left hq)
    have hXid : insertBar hs (tq ++ [Event.readerClose reader rq]) =
        tq ++ [Event.readerClose reader rq] := by
      apply insertBar_id
      intro e he
      rcases List.mem_append.1 he with he | he
      · exact (closes_flags _ hclq e he).1
      · rw [List.mem_singleton.1 he]; rfl
    refine ⟨⟨cpq.1.trace ++ (tq ++ [Event.readerClose reader rq]), ?_, ?_⟩,
      doCopyCmd_barTotal m src tgts s reader length md5 s2 hs hsrc htgt, hopl⟩
    · rw [htrq]
      simp
    · rw [htrl, insertBar_append, hXid, hloud, hXY]
      simp
  · intro hs
    simp [copyWriters]

/-- Witness of C10: three bytes in chunks of two to two targets; the bar is
started after the acquisitions and written after the second target. -/
theorem doCopyCmd_quiet_flag_witness :
    (doCopyCmd (demoManager 3 2 "bad" false) false (loc "src") [loc "d1", loc "d2"]
        ⟨[7, 8, 9], 1⟩).env.trace.filter Event.isTransfer =
      [Event.read 0 3 [7, 8] none, Event.write 0 1 [7, 8] 2 none,
        Event.write 1 2 [7, 8] 2 none, Event.barWrite [7, 8],
        Event.read 0 1 [9] none, Event.write 0 1 [9] 1 none,
        Event.write 1 2 [9] 1 none, Event.barWrite [9]] ∧
    ∃ rest,
      (doCopyCmd (demoManager 3 2 "bad" false) true (loc "src") [loc "d1", loc "d2"]
        ⟨[7, 8, 9], 1⟩).env.trace =
        (Event.getSourceReader (loc "src") (SourceResult.opened 0 3 "abc123") ::
          openEvents "abc123" 3 [loc "d1", loc "d2"] [1, 2]) ++ rest ∧
      (doCopyCmd (demoManager 3 2 "bad" false) false (loc "src") [loc "d1", loc "d2"]
        ⟨[7, 8, 9], 1⟩).env.trace =
        (Event.getSourceReader (loc "src") (SourceResult.opened 0 3 "abc123") ::
          openEvents "abc123" 3 [loc "d1", loc "d2"] [1, 2]) ++
          Event.barStart 3 :: insertBar [1, 2] rest :=
  ⟨by decide,
    ((doCopyCmd_quiet_flag (demoManager 3 2 "bad" false) (loc "src") [loc "d1", loc "d2"]
      ⟨[7, 8, 9], 1⟩).2.2.2.2.2.2.2.2.1 0 3 "abc123" ⟨[7, 8, 9], 3⟩ [1, 2]
      (by decide) (by decide)).1⟩


end CmdCp
